import Mathlib

/-!
Verification of the post-processing/tracking engine of the bird-detection
application (`src/app/detector.py`, `src/app/app.py`).

The Python code is shallowly embedded: floats become exact rationals (`ℚ`),
Python dicts become insertion-ordered association lists, in-place mutation
becomes explicit state passing.  Frame indices are `Int` (Python ints).
The bounding-box geometric mean, computed in the source as
`math.sqrt(w*h) if w > 0 and h > 0 else 0` (detector.py line 181), is carried
as a field `geometric_mean` of each raw detection: the square root itself is
external arithmetic, and the engine only ever compares, maximises and divides
by this value.
-/

attribute [local semireducible] Rat.add Rat.mul Rat.sub Rat.inv

namespace BDP

/-- Configuration constant `CODE_DETECTION_CONF_THRESHOLD = 0.25` (detector.py line 11). -/
def CODE_DETECTION_CONF_THRESHOLD : ℚ := 1/4

/-- Configuration constant `TRACKING_IOU_THRESHOLD = 0.03` (detector.py line 12). -/
def TRACKING_IOU_THRESHOLD : ℚ := 3/100

/-- Configuration constant `TRACKING_FRAMES_TO_LOOK_BACK = 5` (detector.py line 13). -/
def TRACKING_FRAMES_TO_LOOK_BACK : Int := 5

/-- Configuration constant `MIN_BBOX_GEOMETRIC_MEAN = 10` (detector.py line 14). -/
def MIN_BBOX_GEOMETRIC_MEAN : ℚ := 10

/-- Configuration constant `N_SAME_FOR_SWARM = 4` (detector.py line 15). -/
def N_SAME_FOR_SWARM : Nat := 4

/-- Configuration constant `N_BULK_FOR_SWARM = 8` (detector.py line 16). -/
def N_BULK_FOR_SWARM : Nat := 8

/-- Configuration constant `SEAGULL_REF_BBOX_GEOMETRIC_MEAN_PIXELS = 42` (detector.py line 20). -/
def SEAGULL_REF_BBOX_GEOMETRIC_MEAN_PIXELS : ℚ := 42

/-- Configuration constant `SEAGULL_REF_DISTANCE_M = 40.0` (detector.py line 21). -/
def SEAGULL_REF_DISTANCE_M : ℚ := 40

/-- A bounding box `(x1, y1, x2, y2)` in pixel coordinates: the Python code
stores it as the list `det['bbox'] = [x1, y1, x2, y2]`. -/
structure Box where
  x1 : ℚ
  y1 : ℚ
  x2 : ℚ
  y2 : ℚ
deriving DecidableEq

/-- A raw detection record as produced by `run_detection_on_frame`
(detector.py lines 86-92), together with the `geometric_mean` field that
`process_video_frame_with_tracking` attaches in place at line 182
(`math.sqrt(w*h)` when both dimensions are positive, else `0`). -/
structure Det where
  bbox : Box
  cls : String
  confidence : ℚ
  geometric_mean : ℚ
deriving DecidableEq

/-- Core test of the classifier (detector.py line 186): a detection is *core*
iff `geometric_mean >= MIN_BBOX_GEOMETRIC_MEAN` and
`confidence >= CODE_DETECTION_CONF_THRESHOLD`. -/
def isCore (d : Det) : Bool :=
  decide (MIN_BBOX_GEOMETRIC_MEAN ≤ d.geometric_mean) &&
  decide (CODE_DETECTION_CONF_THRESHOLD ≤ d.confidence)

/-- `base_detections` (detector.py line 171): every raw detection meeting the
basic confidence threshold, in order. -/
def base_detections (raw : List Det) : List Det :=
  raw.filter (fun d => decide (CODE_DETECTION_CONF_THRESHOLD ≤ d.confidence))

/-- `swarm_candidates` (detector.py lines 174-192): the raw detections that
fail the core test, in order. -/
def swarm_candidates (raw : List Det) : List Det :=
  raw.filter (fun d => !isCore d)

/-- One step of building a Python counting dict `d[k] = d.get(k, 0) + 1`:
increment the first entry with key `c`, or append `(c, 1)`.  Python dicts
iterate in insertion order, which the association list preserves. -/
def insertCount : List (String × Nat) → String → List (String × Nat)
  | [], c => [(c, 1)]
  | (k, n) :: rest, c =>
      if k = c then (k, n + 1) :: rest else (k, n) :: insertCount rest c

/-- Fold a list of keys into a counting dict, starting from `acc`. -/
def tally (acc : List (String × Nat)) (ks : List String) : List (String × Nat) :=
  ks.foldl insertCount acc

/-- `core_detection_counts_by_type` (detector.py lines 176-189): the counting
dict over the class labels of the core detections, in insertion order. -/
def core_detection_counts_by_type (raw : List Det) : List (String × Nat) :=
  tally [] ((raw.filter isCore).map (fun d => d.cls))

/-- Number of core detections of class `c` in a frame's raw list. -/
def coreCount (raw : List Det) (c : String) : Nat :=
  ((raw.filter isCore).map (fun d => d.cls)).count c

/-- `bulk_swarm_class` (detector.py lines 195-202): scan the counting dict in
iteration order; the first class with core count `>= N_BULK_FOR_SWARM` that is
not the literal label `"unknown_bird"` triggers bulk mode. -/
def bulk_swarm_class (raw : List Det) : Option (String × Nat) :=
  (core_detection_counts_by_type raw).find?
    (fun p => decide (N_BULK_FOR_SWARM ≤ p.2) && !(p.1 == "unknown_bird"))

/-- `normal_swarm_class` (detector.py lines 214-218): the first class in the
counting dict with core count `>= N_SAME_FOR_SWARM` (no `"unknown_bird"`
exclusion here). -/
def normal_swarm_class (raw : List Det) : Option (String × Nat) :=
  (core_detection_counts_by_type raw).find? (fun p => decide (N_SAME_FOR_SWARM ≤ p.2))

/-- The Detection Classifier, `detections_for_tracking` (detector.py lines
194-226).  In the bulk branch every raw detection is relabeled in place and
the full raw list is forwarded.  In the normal-swarm branch the source
relabels the swarm-candidate dicts in place; every non-core entry of
`base_detections` is the *same dict object* as a swarm candidate, so those
base entries are relabeled too — the `map` over the base list reproduces that
aliasing. -/
def detections_for_tracking (raw : List Det) : List Det :=
  match bulk_swarm_class raw with
  | some p => raw.map (fun d => { d with cls := p.1 })
  | none =>
      match normal_swarm_class raw with
      | some p =>
          (base_detections raw).map (fun d => if isCore d then d else { d with cls := p.1 })
            ++ (swarm_candidates raw).map (fun d => { d with cls := p.1 })
      | none => base_detections raw

/-! ### Association-list counting lemmas -/

/-- Value of a counting dict at key `c` (`d.get(c, 0)`). -/
def lookupN (al : List (String × Nat)) (c : String) : Nat :=
  match al.find? (fun p => p.1 == c) with
  | some p => p.2
  | none => 0

theorem lookupN_nil (c : String) : lookupN [] c = 0 := rfl

theorem lookupN_cons_self (k : String) (n : Nat) (rest : List (String × Nat)) :
    lookupN ((k, n) :: rest) k = n := by
  simp [lookupN, List.find?_cons]

theorem lookupN_cons_ne (k c : String) (n : Nat) (rest : List (String × Nat))
    (h : k ≠ c) : lookupN ((k, n) :: rest) c = lookupN rest c := by
  simp [lookupN, List.find?_cons, h]

theorem lookupN_insertCount_self (al : List (String × Nat)) (c : String) :
    lookupN (insertCount al c) c = lookupN al c + 1 := by
  induction al with
  | nil => simp [insertCount, lookupN]
  | cons p rest ih =>
      obtain ⟨k, n⟩ := p
      by_cases hk : k = c
      · subst hk
        simp [insertCount, lookupN_cons_self]
      · simp [insertCount, hk, lookupN_cons_ne _ _ _ _ hk, ih]

theorem lookupN_insertCount_ne (al : List (String × Nat)) (c c' : String)
    (h : c ≠ c') : lookupN (insertCount al c) c' = lookupN al c' := by
  induction al with
  | nil =>
      rw [show insertCount [] c = [(c, 1)] from rfl, lookupN_cons_ne _ _ _ _ h]
  | cons p rest ih =>
      obtain ⟨k, n⟩ := p
      by_cases hk : k = c
      · subst hk
        rw [insertCount, if_pos rfl]
        by_cases hk' : k = c'
        · exact absurd hk' h
        · rw [lookupN_cons_ne _ _ _ _ hk', lookupN_cons_ne _ _ _ _ hk']
      · rw [insertCount, if_neg hk]
        by_cases hk' : k = c'
        · subst hk'
          rw [lookupN_cons_self, lookupN_cons_self]
        · rw [lookupN_cons_ne _ _ _ _ hk', lookupN_cons_ne _ _ _ _ hk', ih]

theorem lookupN_tally (ks : List String) (acc : List (String × Nat)) (c : String) :
    lookupN (tally acc ks) c = lookupN acc c + ks.count c := by
  induction ks generalizing acc with
  | nil => simp [tally]
  | cons k rest ih =>
      show lookupN (tally (insertCount acc k) rest) c = _
      rw [ih]
      by_cases hk : k = c
      · subst hk
        rw [lookupN_insertCount_self]
        have hc : List.count k (k :: rest) = List.count k rest + 1 := by
          simp [List.count_cons]
        rw [hc]
        omega
      · rw [lookupN_insertCount_ne _ _ _ hk]
        have hc : List.count c (k :: rest) = List.count c rest := by
          simp [List.count_cons, hk]
        rw [hc]

/-- Well-formedness of a counting dict: keys are distinct and every entry's
value is the dict's value at its key. -/
def goodDict (al : List (String × Nat)) : Prop :=
  (al.map (fun p => p.1)).Nodup ∧ ∀ p ∈ al, p.2 = lookupN al p.1

theorem mem_keys_insertCount {al : List (String × Nat)} {c x : String}
    (h : x ∈ (insertCount al c).map (fun p => p.1)) :
    x ∈ al.map (fun p => p.1) ∨ x = c := by
  induction al with
  | nil =>
      right
      rw [show insertCount [] c = [(c, 1)] from rfl] at h
      simpa using h
  | cons p rest ih =>
      obtain ⟨k, n⟩ := p
      by_cases hk : k = c
      · subst hk
        left
        rw [insertCount, if_pos rfl] at h
        simpa using h
      · rw [insertCount, if_neg hk, List.map_cons] at h
        rw [List.map_cons]
        rcases List.mem_cons.mp h with h | h
        · exact Or.inl (List.mem_cons.mpr (Or.inl h))
        · rcases ih h with h' | h'
          · exact Or.inl (List.mem_cons.mpr (Or.inr h'))
          · exact Or.inr h'

theorem goodDict_insertCount {al : List (String × Nat)} (c : String)
    (h : goodDict al) : goodDict (insertCount al c) := by
  induction al with
  | nil =>
      rw [show insertCount [] c = [(c, 1)] from rfl]
      constructor
      · simp
      · intro p hp
        rw [List.mem_singleton] at hp
        subst hp
        rw [lookupN_cons_self]
  | cons q rest ih =>
      obtain ⟨k, n⟩ := q
      obtain ⟨hnd, hval⟩ := h
      rw [List.map_cons] at hnd
      obtain ⟨hknotin, hndrest⟩ := List.nodup_cons.mp hnd
      have hne_of_mem : ∀ p ∈ rest, p.1 ≠ k := by
        intro p hp hpk
        exact hknotin (hpk ▸ List.mem_map_of_mem (fun p => p.1) hp)
      have hrest_good : goodDict rest := by
        refine ⟨hndrest, ?_⟩
        intro p hp
        have := hval p (List.mem_cons_of_mem _ hp)
        rwa [lookupN_cons_ne _ _ _ _ (Ne.symm (hne_of_mem p hp))] at this
      by_cases hk : k = c
      · subst hk
        constructor
        · rw [insertCount, if_pos rfl, List.map_cons]
          exact List.nodup_cons.mpr ⟨hknotin, hndrest⟩
        · intro p hp
          rw [insertCount, if_pos rfl] at hp
          rcases List.mem_cons.mp hp with hp | hp
          · subst hp
            rw [insertCount, if_pos rfl, lookupN_cons_self]
          · rw [insertCount, if_pos rfl,
              lookupN_cons_ne _ _ _ _ (Ne.symm (hne_of_mem p hp))]
            exact hrest_good.2 p hp
      · obtain ⟨ihnd, ihval⟩ := ih hrest_good
        have hne_ins : ∀ p ∈ insertCount rest c, p.1 ≠ k := by
          intro p hp hpk
          have hmem : p.1 ∈ (insertCount rest c).map (fun p => p.1) :=
            List.mem_map_of_mem (fun p => p.1) hp
          rcases mem_keys_insertCount hmem with h' | h'
          · exact hknotin (hpk ▸ h')
          · exact hk (hpk ▸ h')
        constructor
        · rw [insertCount, if_neg hk, List.map_cons]
          refine List.nodup_cons.mpr ⟨?_, ihnd⟩
          intro hmem
          rcases mem_keys_insertCount hmem with h' | h'
          · exact hknotin h'
          · exact hk h'
        · intro p hp
          rw [insertCount, if_neg hk] at hp
          rcases List.mem_cons.mp hp with hp | hp
          · subst hp
            rw [insertCount, if_neg hk, lookupN_cons_self]
          · rw [insertCount, if_neg hk,
              lookupN_cons_ne _ _ _ _ (Ne.symm (hne_ins p hp))]
            exact ihval p hp

theorem goodDict_tally (ks : List String) (acc : List (String × Nat))
    (h : goodDict acc) : goodDict (tally acc ks) := by
  induction ks generalizing acc with
  | nil => exact h
  | cons k rest ih => exact ih _ (goodDict_insertCount k h)

theorem goodDict_core_counts (raw : List Det) :
    goodDict (core_detection_counts_by_type raw) := by
  apply goodDict_tally
  exact ⟨List.nodup_nil, by intro p hp; simp at hp⟩

theorem lookupN_core_counts (raw : List Det) (c : String) :
    lookupN (core_detection_counts_by_type raw) c = coreCount raw c := by
  unfold core_detection_counts_by_type coreCount
  rw [lookupN_tally, lookupN_nil, Nat.zero_add]

/-- Any entry of the core-count dict carries the true core count of its key. -/
theorem mem_core_counts_val (raw : List Det) (p : String × Nat)
    (hp : p ∈ core_detection_counts_by_type raw) : p.2 = coreCount raw p.1 := by
  have := (goodDict_core_counts raw).2 p hp
  rwa [lookupN_core_counts] at this

/-- A class with a positive core count has an entry in the core-count dict. -/
theorem core_counts_entry (raw : List Det) (c : String)
    (h : 0 < coreCount raw c) :
    (core_detection_counts_by_type raw).find? (fun p => p.1 == c)
      = some (c, coreCount raw c) := by
  have hlook := lookupN_core_counts raw c
  unfold lookupN at hlook
  match hfind : (core_detection_counts_by_type raw).find? (fun p => p.1 == c) with
  | none =>
      rw [hfind] at hlook
      have h0 : (0 : Nat) = coreCount raw c := hlook
      omega
  | some q =>
      rw [hfind] at hlook
      have hq2 : q.2 = coreCount raw c := hlook
      have hq1 : q.1 = c := by
        have := List.find?_some hfind
        simpa using this
      have hq : q = (c, coreCount raw c) := by
        obtain ⟨q1, q2⟩ := q
        simp only at hq1 hq2
        rw [hq1, hq2]
      rw [hq] at hfind
      exact hfind

/-! ### Swarm-mode characterisations -/

theorem bulk_swarm_class_some {raw : List Det} {p : String × Nat}
    (h : bulk_swarm_class raw = some p) :
    p.1 ≠ "unknown_bird" ∧ p.2 = coreCount raw p.1 ∧ N_BULK_FOR_SWARM ≤ p.2 := by
  have hpred := List.find?_some h
  have hmem := List.mem_of_find?_eq_some h
  have hval := mem_core_counts_val raw p hmem
  simp only [Bool.and_eq_true, decide_eq_true_eq, Bool.not_eq_true', beq_eq_false_iff_ne]
    at hpred
  exact ⟨hpred.2, hval, hpred.1⟩

theorem bulk_swarm_class_isSome {raw : List Det} {X : String}
    (hX : X ≠ "unknown_bird") (hc : N_BULK_FOR_SWARM ≤ coreCount raw X) :
    ∃ p, bulk_swarm_class raw = some p := by
  have hpos : 0 < coreCount raw X := lt_of_lt_of_le (by norm_num [N_BULK_FOR_SWARM]) hc
  have hentry := core_counts_entry raw X hpos
  have hmem := List.mem_of_find?_eq_some hentry
  match hfind : bulk_swarm_class raw with
  | some p => exact ⟨p, rfl⟩
  | none =>
      exfalso
      have := List.find?_eq_none.mp hfind _ hmem
      simp only [Bool.and_eq_true, decide_eq_true_eq, Bool.not_eq_true',
        beq_eq_false_iff_ne, not_and] at this
      exact this hc hX

theorem bulk_swarm_class_none {raw : List Det}
    (h : ∀ X, X ≠ "unknown_bird" → coreCount raw X < N_BULK_FOR_SWARM) :
    bulk_swarm_class raw = none := by
  apply List.find?_eq_none.mpr
  intro p hp
  have hval := mem_core_counts_val raw p hp
  simp only [Bool.and_eq_true, decide_eq_true_eq, Bool.not_eq_true',
    beq_eq_false_iff_ne, not_and]
  intro hcnt hne
  have := h p.1 hne
  omega

theorem normal_swarm_class_some {raw : List Det} {p : String × Nat}
    (h : normal_swarm_class raw = some p) :
    p.2 = coreCount raw p.1 ∧ N_SAME_FOR_SWARM ≤ p.2 := by
  have hpred := List.find?_some h
  have hmem := List.mem_of_find?_eq_some h
  have hval := mem_core_counts_val raw p hmem
  simp only [decide_eq_true_eq] at hpred
  exact ⟨hval, hpred⟩

theorem normal_swarm_class_isSome {raw : List Det} {Y : String}
    (hc : N_SAME_FOR_SWARM ≤ coreCount raw Y) :
    ∃ p, normal_swarm_class raw = some p := by
  have hpos : 0 < coreCount raw Y := lt_of_lt_of_le (by norm_num [N_SAME_FOR_SWARM]) hc
  have hentry := core_counts_entry raw Y hpos
  have hmem := List.mem_of_find?_eq_some hentry
  match hfind : normal_swarm_class raw with
  | some p => exact ⟨p, rfl⟩
  | none =>
      exfalso
      have := List.find?_eq_none.mp hfind _ hmem
      simp only [decide_eq_true_eq] at this
      exact this hc

theorem normal_swarm_class_none {raw : List Det}
    (h : ∀ Y, coreCount raw Y < N_SAME_FOR_SWARM) :
    normal_swarm_class raw = none := by
  apply List.find?_eq_none.mpr
  intro p hp
  have hval := mem_core_counts_val raw p hp
  simp only [decide_eq_true_eq, not_le]
  have := h p.1
  omega

/-- C4.  For every frame whose raw detection list contains some class X other
than the literal label "unknown_bird" with at least `N_BULK_FOR_SWARM = 8`
core detections (geometric size ≥ 10 and confidence ≥ 0.25), the classifier
relabels every raw detection of that frame — core and swarm candidate alike —
to (such a class) X and forwards the full raw list unfiltered, overriding the
confidence and size filters entirely for that frame.  When several classes
qualify the code relabels to the first one in counting-dict iteration order,
so the statement is existential in X, as in the spec ("the first class …
triggers bulk mode"). -/
theorem c4_bulk_swarm_override (raw : List Det)
    (h : ∃ X, X ≠ "unknown_bird" ∧ N_BULK_FOR_SWARM ≤ coreCount raw X) :
    ∃ X, X ≠ "unknown_bird" ∧ N_BULK_FOR_SWARM ≤ coreCount raw X ∧
      detections_for_tracking raw = raw.map (fun d => { d with cls := X }) := by
  obtain ⟨X, hX, hc⟩ := h
  obtain ⟨p, hp⟩ := bulk_swarm_class_isSome hX hc
  obtain ⟨hne, hval, hcnt⟩ := bulk_swarm_class_some hp
  refine ⟨p.1, hne, by omega, ?_⟩
  unfold detections_for_tracking
  rw [hp]

/-- Witness for C4 at a concrete frame: eight core "gull" detections plus one
low-confidence candidate trigger bulk mode and relabel everything. -/
def c4_core_det : Det :=
  { bbox := ⟨0, 0, 50, 50⟩, cls := "gull", confidence := 9/10, geometric_mean := 50 }

def c4_low_det : Det :=
  { bbox := ⟨60, 60, 63, 63⟩, cls := "tern", confidence := 1/10, geometric_mean := 3 }

def c4_example : List Det := List.replicate 8 c4_core_det ++ [c4_low_det]

theorem c4_bulk_swarm_override_witness :
    ∃ X, X ≠ "unknown_bird" ∧ N_BULK_FOR_SWARM ≤ coreCount c4_example X ∧
      detections_for_tracking c4_example = c4_example.map (fun d => { d with cls := X }) :=
  c4_bulk_swarm_override c4_example ⟨"gull", by decide, by decide⟩

/-- Counterexample input for C5: one non-core detection of class "a" with
confidence 0.9 (so it is in the base list *and* among the swarm candidates)
together with four core detections of class "b". -/
def c5_small_det : Det :=
  { bbox := ⟨0, 0, 7, 4⟩, cls := "a", confidence := 9/10, geometric_mean := 5 }

def c5_core_det : Det :=
  { bbox := ⟨10, 10, 60, 60⟩, cls := "b", confidence := 9/10, geometric_mean := 50 }

def c5_example : List Det := c5_small_det :: List.replicate 4 c5_core_det

/-- Counterexample to C5 as stated.  Class "b" has exactly 4 core detections
(normal swarm, no bulk), and "a"'s single detection is non-core but has
confidence ≥ 0.25.  The claim predicts the output is the base list (labels
untouched) plus the relabeled candidates, so its first element would keep
class "a"; the code relabels the shared record in place, so every output
element has class "b". -/
theorem c5_counterexample :
    detections_for_tracking c5_example ≠
      base_detections c5_example
        ++ (swarm_candidates c5_example).map (fun d : Det => { d with cls := "b" }) ∧
    (detections_for_tracking c5_example).map (fun d => d.cls) =
      ["b", "b", "b", "b", "b", "b"] ∧
    (base_detections c5_example
        ++ (swarm_candidates c5_example).map (fun d : Det => { d with cls := "b" })).map
      (fun d : Det => d.cls) = ["a", "b", "b", "b", "b", "b"] := by
  refine ⟨by decide, by decide, by decide⟩

/-- C5 (amended).  For every frame in which no class triggers bulk swarm: if
some class Y has at least `N_SAME_FOR_SWARM = 4` core detections, the
classifier output is the base list (all raw detections with confidence
≥ 0.25) *with its non-core members relabeled to Y* (they are the same records
as the swarm candidates, which the code relabels in place), followed by every
non-core detection relabeled to Y; if no class reaches 4 core detections, the
output is exactly the base list. -/
theorem c5_normal_swarm_amended (raw : List Det)
    (hnb : ∀ X, X ≠ "unknown_bird" → coreCount raw X < N_BULK_FOR_SWARM) :
    ((∃ Y, N_SAME_FOR_SWARM ≤ coreCount raw Y) →
      ∃ Y, N_SAME_FOR_SWARM ≤ coreCount raw Y ∧
        detections_for_tracking raw =
          (base_detections raw).map (fun d => if isCore d then d else { d with cls := Y })
            ++ (swarm_candidates raw).map (fun d => { d with cls := Y })) ∧
    ((∀ Y, coreCount raw Y < N_SAME_FOR_SWARM) →
      detections_for_tracking raw = base_detections raw) := by
  have hbulk : bulk_swarm_class raw = none := bulk_swarm_class_none hnb
  constructor
  · rintro ⟨Y, hY⟩
    obtain ⟨p, hp⟩ := normal_swarm_class_isSome hY
    obtain ⟨hval, hcnt⟩ := normal_swarm_class_some hp
    refine ⟨p.1, by omega, ?_⟩
    unfold detections_for_tracking
    rw [hbulk, hp]
  · intro hall
    have hns : normal_swarm_class raw = none := normal_swarm_class_none hall
    unfold detections_for_tracking
    rw [hbulk, hns]

/-- Witness for the amended C5 at the concrete frame `c5_example`. -/
theorem c5_normal_swarm_amended_witness :
    ∃ Y, N_SAME_FOR_SWARM ≤ coreCount c5_example Y ∧
      detections_for_tracking c5_example =
        (base_detections c5_example).map
            (fun d => if isCore d then d else { d with cls := Y })
          ++ (swarm_candidates c5_example).map (fun d => { d with cls := Y }) :=
  (c5_normal_swarm_amended c5_example
      (fun X _ => by
        have hle := List.count_le_length X
          ((c5_example.filter isCore).map (fun d => d.cls))
        have hlen : ((c5_example.filter isCore).map (fun d => d.cls)).length = 4 := by
          decide
        unfold coreCount
        rw [N_BULK_FOR_SWARM]
        omega)).1
    ⟨"b", by decide⟩

/-! ### IoU (`calculate_iou`, detector.py lines 133-144) -/

/-- Intersection area of two boxes, clamped to `≥ 0` on each axis
(detector.py lines 135-139). -/
def inter_area (box1 box2 : Box) : ℚ :=
  max 0 (min box1.x2 box2.x2 - max box1.x1 box2.x1) *
    max 0 (min box1.y2 box2.y2 - max box1.y1 box2.y1)

/-- Area of a single box as computed at detector.py lines 140-141. -/
def box_area (b : Box) : ℚ := (b.x2 - b.x1) * (b.y2 - b.y1)

/-- Union area (detector.py line 142). -/
def union_area (box1 box2 : Box) : ℚ :=
  box_area box1 + box_area box2 - inter_area box1 box2

/-- `calculate_iou` (detector.py lines 133-144): intersection over union,
returning 0 unless the union area is positive. -/
def calculate_iou (box1 box2 : Box) : ℚ :=
  if 0 < union_area box1 box2 then inter_area box1 box2 / union_area box1 box2 else 0

theorem inter_area_comm (A B : Box) : inter_area A B = inter_area B A := by
  unfold inter_area
  rw [max_comm A.x1 B.x1, max_comm A.y1 B.y1, min_comm A.x2 B.x2, min_comm A.y2 B.y2]

theorem union_area_comm (A B : Box) : union_area A B = union_area B A := by
  unfold union_area
  rw [inter_area_comm, add_comm]

theorem inter_area_nonneg (A B : Box) : 0 ≤ inter_area A B := by
  unfold inter_area
  exact mul_nonneg (le_max_left 0 _) (le_max_left 0 _)

theorem inter_area_le_left (A B : Box)
    (hx : A.x1 < A.x2) (hy : A.y1 < A.y2) : inter_area A B ≤ box_area A := by
  unfold inter_area box_area
  have hw : max 0 (min A.x2 B.x2 - max A.x1 B.x1) ≤ A.x2 - A.x1 := by
    apply max_le
    · linarith
    · have h1 : min A.x2 B.x2 ≤ A.x2 := min_le_left _ _
      have h2 : A.x1 ≤ max A.x1 B.x1 := le_max_left _ _
      linarith
  have hh : max 0 (min A.y2 B.y2 - max A.y1 B.y1) ≤ A.y2 - A.y1 := by
    apply max_le
    · linarith
    · have h1 : min A.y2 B.y2 ≤ A.y2 := min_le_left _ _
      have h2 : A.y1 ≤ max A.y1 B.y1 := le_max_left _ _
      linarith
  exact mul_le_mul hw hh (le_max_left 0 _) (by linarith)

/-- C9.  The IoU function satisfies: `IoU(A, A) = 1` for every non-degenerate
box `A`; IoU is symmetric; `IoU(A, B) ∈ [0, 1]` for all non-degenerate boxes;
and `IoU(A, B) = 0` whenever the union area is 0. -/
theorem c9_iou_properties :
    (∀ A : Box, A.x1 < A.x2 → A.y1 < A.y2 → calculate_iou A A = 1) ∧
    (∀ A B : Box, calculate_iou A B = calculate_iou B A) ∧
    (∀ A B : Box, A.x1 < A.x2 → A.y1 < A.y2 → B.x1 < B.x2 → B.y1 < B.y2 →
      0 ≤ calculate_iou A B ∧ calculate_iou A B ≤ 1) ∧
    (∀ A B : Box, union_area A B = 0 → calculate_iou A B = 0) := by
  refine ⟨?_, ?_, ?_, ?_⟩
  · intro A hx hy
    have hself : inter_area A A = box_area A := by
      unfold inter_area box_area
      rw [max_self, max_self, min_self, min_self]
      rw [max_eq_right (by linarith : (0:ℚ) ≤ A.x2 - A.x1),
        max_eq_right (by linarith : (0:ℚ) ≤ A.y2 - A.y1)]
    have harea : 0 < box_area A := mul_pos (by linarith) (by linarith)
    have hunion : union_area A A = box_area A := by
      unfold union_area
      rw [hself]
      ring
    unfold calculate_iou
    rw [hunion, hself, if_pos harea]
    exact div_self (ne_of_gt harea)
  · intro A B
    unfold calculate_iou
    rw [inter_area_comm, union_area_comm]
  · intro A B hax hay hbx hby
    have hA : 0 < box_area A := mul_pos (by linarith) (by linarith)
    have hB : 0 < box_area B := mul_pos (by linarith) (by linarith)
    have hiA : inter_area A B ≤ box_area A := inter_area_le_left A B hax hay
    have hiB : inter_area A B ≤ box_area B := by
      rw [inter_area_comm]
      exact inter_area_le_left B A hbx hby
    have hinn : 0 ≤ inter_area A B := inter_area_nonneg A B
    have hu : 0 < union_area A B := by
      unfold union_area
      linarith
    constructor
    · unfold calculate_iou
      rw [if_pos hu]
      exact div_nonneg hinn (le_of_lt hu)
    · unfold calculate_iou
      rw [if_pos hu]
      rw [div_le_one hu]
      unfold union_area
      linarith
  · intro A B h
    unfold calculate_iou
    rw [h]
    simp

/-- Witness for C9 at concrete boxes: the unit checks at `A = (0,0,2,2)`,
`B = (1,1,3,3)` and the degenerate all-zero box whose union area is 0. -/
theorem c9_iou_properties_witness :
    calculate_iou ⟨0, 0, 2, 2⟩ ⟨0, 0, 2, 2⟩ = 1 ∧
    calculate_iou ⟨0, 0, 2, 2⟩ ⟨1, 1, 3, 3⟩ = calculate_iou ⟨1, 1, 3, 3⟩ ⟨0, 0, 2, 2⟩ ∧
    (0 ≤ calculate_iou ⟨0, 0, 2, 2⟩ ⟨1, 1, 3, 3⟩ ∧
      calculate_iou ⟨0, 0, 2, 2⟩ ⟨1, 1, 3, 3⟩ ≤ 1) ∧
    calculate_iou ⟨0, 0, 0, 0⟩ ⟨0, 0, 0, 0⟩ = 0 :=
  ⟨c9_iou_properties.1 ⟨0, 0, 2, 2⟩ (by decide) (by decide),
   c9_iou_properties.2.1 ⟨0, 0, 2, 2⟩ ⟨1, 1, 3, 3⟩,
   c9_iou_properties.2.2.1 ⟨0, 0, 2, 2⟩ ⟨1, 1, 3, 3⟩
     (by decide) (by decide) (by decide) (by decide),
   c9_iou_properties.2.2.2 ⟨0, 0, 0, 0⟩ ⟨0, 0, 0, 0⟩ (by decide)⟩

/-! ### Track store and the per-frame tracking pipeline
(`process_video_frame_with_tracking`, detector.py lines 146-350)

The Python `tracking_state` dict (track id → track dict) is embedded as an
insertion-ordered list of `Track` records; `setTrack` models `d[k] = v`
(replace in place when the key exists, append otherwise). -/

/-- One track record (detector.py lines 279-289 list every field the code
creates; `distance_m` is attached later by the distance estimator and
persists across frames because matched updates start from `.copy()`). -/
structure Track where
  id : Nat
  cls : String
  bbox : Box
  confidence : ℚ
  bbox_size_history : List ℚ
  visibility_count : Nat
  last_visible_frame : Int
  max_bbox_geometric_mean : ℚ
  is_visible : Bool
  distance_m : Option ℚ
deriving DecidableEq

/-- Python dict assignment `tracking_state[v.id] = v`: replace the existing
entry in place, else append (dicts keep insertion order). -/
def setTrack (s : List Track) (v : Track) : List Track :=
  if s.any (fun t => t.id == v.id) then s.map (fun t => if t.id == v.id then v else t)
  else s ++ [v]

/-- Eligibility gate of the matching loop (detector.py lines 237-238): same
class and `last_visible_frame >= frame_index - TRACKING_FRAMES_TO_LOOK_BACK`. -/
def eligible (frame_index : Int) (d : Det) (t : Track) : Bool :=
  t.cls == d.cls &&
    decide (frame_index - TRACKING_FRAMES_TO_LOOK_BACK ≤ t.last_visible_frame)

/-- The inner best-match scan (detector.py lines 234-242): fold over the
store in iteration order keeping the strictly best IoU above the threshold. -/
def bestMatch (frame_index : Int) (s : List Track) (d : Det) : Option Nat × ℚ :=
  s.foldl
    (fun best t =>
      if eligible frame_index d t then
        let iou := calculate_iou d.bbox t.bbox
        if best.2 < iou ∧ TRACKING_IOU_THRESHOLD < iou then (some t.id, iou) else best
      else best)
    (none, 0)

/-- Update of a matched track (detector.py lines 247-269): the streak is
incremented only when the previous `last_visible_frame` was exactly the
previous frame, else reset to 1; then box, confidence, frame stamp, running
maximum size and size history are updated. -/
def updateMatched (frame_index : Int) (t : Track) (d : Det) : Track :=
  let vis : Nat :=
    if t.last_visible_frame = frame_index - 1 then t.visibility_count + 1 else 1
  { t with
    visibility_count := vis
    bbox := d.bbox
    confidence := d.confidence
    last_visible_frame := frame_index
    is_visible := true
    max_bbox_geometric_mean := max t.max_bbox_geometric_mean d.geometric_mean
    bbox_size_history := t.bbox_size_history ++ [d.geometric_mean] }

/-- State threaded through the matching and creation loops: the store, the
`current_frame_tracking_updates` dict, and the matched (detection index,
track id) pairs — the source keeps the indices as
`matched_detections_indices` and the id as the loop-local `best_match_id`. -/
structure MatchState where
  tracks : List Track
  updates : List Track
  matched : List (Nat × Nat)
deriving DecidableEq

/-- Body of the matching loop for one detection (detector.py lines 233-271). -/
def matchOne (frame_index : Int) (ms : MatchState) (i : Nat) (d : Det) : MatchState :=
  match (bestMatch frame_index ms.tracks d).1 with
  | none => ms
  | some j =>
      match ms.tracks.find? (fun t => t.id == j) with
      | none => ms
      | some t0 =>
          let u := updateMatched frame_index t0 d
          { tracks := setTrack ms.tracks u
            updates := setTrack ms.updates u
            matched := ms.matched ++ [(i, j)] }

/-- The matching loop `for i, current_det in enumerate(detections_for_tracking)`
(detector.py lines 233-271), with `i` the running enumeration index. -/
def match_loop (frame_index : Int) (ms : MatchState) (i : Nat) : List Det → MatchState
  | [] => ms
  | d :: rest => match_loop frame_index (matchOne frame_index ms i d) (i + 1) rest

/-- `next_id` computation (detector.py lines 274-275):
`max(all_ids + [0]) + 1 if all_ids else 1`, which equals
`foldl max 0 ids + 1` in both branches. -/
def next_id (s : List Track) : Nat := (s.map Track.id).foldl max 0 + 1

/-- A freshly created track (detector.py lines 279-289). -/
def newTrack (frame_index : Int) (j : Nat) (d : Det) : Track :=
  { id := j
    cls := d.cls
    bbox := d.bbox
    confidence := d.confidence
    bbox_size_history := [d.geometric_mean]
    visibility_count := 1
    last_visible_frame := frame_index
    max_bbox_geometric_mean := d.geometric_mean
    is_visible := true
    distance_m := none }

/-- The creation loop (detector.py lines 276-292): every detection index not
in `matched_detections_indices` spawns a new track with the next id. -/
def create_loop (frame_index : Int) (acc : MatchState × Nat) (i : Nat) :
    List Det → MatchState × Nat
  | [] => acc
  | d :: rest =>
      if acc.1.matched.any (fun q => q.1 == i) then
        create_loop frame_index acc (i + 1) rest
      else
        create_loop frame_index
          ({ tracks := setTrack acc.1.tracks (newTrack frame_index acc.2 d)
             updates := setTrack acc.1.updates (newTrack frame_index acc.2 d)
             matched := acc.1.matched },
            acc.2 + 1)
          (i + 1) rest

/-- Visibility marking and eviction (detector.py lines 294-304): tracks not
updated this frame are marked not visible, and deleted when
`frame_index - last_visible_frame > TRACKING_FRAMES_TO_LOOK_BACK`. -/
def expire_pass (frame_index : Int) (ms : MatchState) : List Track :=
  (ms.tracks.map (fun t =>
      if ms.updates.any (fun u => u.id == t.id) then t
      else { t with is_visible := false })).filter
    (fun t => ms.updates.any (fun u => u.id == t.id)
      || decide (frame_index - t.last_visible_frame ≤ TRACKING_FRAMES_TO_LOOK_BACK))

/-- Body of the distance-estimation loop for one visible track (detector.py
lines 320-330), with `p0` the seagull reference entry of the wingspan table:
when the track's class has a known wingspan and both the observed maximum
geometric size and the wingspan are positive, set
`distance_m = (w / seagullW) * (REF_PIXELS / maxGm) * REF_DISTANCE`. -/
def estimate_one (wings : List (String × ℚ)) (p0 : String × ℚ) (t : Track) : Track :=
  match wings.find? (fun q => q.1 == t.cls) with
  | none => t
  | some p1 =>
      if 0 < t.max_bbox_geometric_mean ∧ 0 < p1.2 then
        { t with distance_m := some (p1.2 / p0.2
            * (SEAGULL_REF_BBOX_GEOMETRIC_MEAN_PIXELS / t.max_bbox_geometric_mean)
            * SEAGULL_REF_DISTANCE_M) }
      else t

/-- The distance estimator (detector.py lines 311-330), applied to the
visible tracks of the frame: when the reference configuration is usable
(non-empty table containing a positive "seagull" entry, positive reference
pixel size), run `estimate_one` over every entry. -/
def estimate_distances (wings : List (String × ℚ)) (anns : List Track) : List Track :=
  match wings.find? (fun p => p.1 == "seagull") with
  | none => anns
  | some p0 =>
      if wings ≠ [] ∧ 0 < SEAGULL_REF_BBOX_GEOMETRIC_MEAN_PIXELS ∧ 0 < p0.2 then
        anns.map (estimate_one wings p0)
      else anns

/-- One entry of the per-frame result list sent to the frontend
(detector.py lines 339-348). -/
structure FDet where
  cls : String
  confidence : ℚ
  tracked_id : Nat
  distance_m : Option ℚ
  visibility_count : Nat
  box : Box
deriving DecidableEq

def toFDet (t : Track) : FDet :=
  { cls := t.cls
    confidence := t.confidence
    tracked_id := t.id
    distance_m := t.distance_m
    visibility_count := t.visibility_count
    box := t.bbox }

/-- Result of processing one frame: the frontend detection list and the
updated store. -/
structure FrameResult where
  dets : List FDet
  state : List Track
deriving DecidableEq

/-- State after the matching loop (detector.py lines 230-271), starting from
the store `s`, an empty updates dict and no matched indices. -/
def frame_match_state (frame_index : Int) (raw : List Det) (s : List Track) :
    MatchState :=
  match_loop frame_index ⟨s, [], []⟩ 0 (detections_for_tracking raw)

/-- State after the creation loop (detector.py lines 273-292). -/
def frame_full_state (frame_index : Int) (raw : List Det) (s : List Track) :
    MatchState :=
  (create_loop frame_index
      (frame_match_state frame_index raw s,
        next_id (frame_match_state frame_index raw s).tracks)
      0 (detections_for_tracking raw)).1

/-- `detections_for_overlay` after distance estimation (detector.py lines
307-330): the visible updates, with distances attached. -/
def frame_overlay (frame_index : Int) (raw : List Det)
    (wings : List (String × ℚ)) (s : List Track) : List Track :=
  estimate_distances wings
    ((frame_full_state frame_index raw s).updates.filter (fun t => t.is_visible))

/-- Synchronisation of the store with the in-place distance mutation: the
dicts in `detections_for_annotation` are the same objects as the store's, so
a store entry whose id appears in the overlay takes the overlay record. -/
def overlay_replace (overlay : List Track) (t : Track) : Track :=
  match overlay.find? (fun u => u.id == t.id) with
  | some u => u
  | none => t

/-- The pure core of `process_video_frame_with_tracking` (detector.py lines
165-350), after the frame read and the raw model detections: classifier,
matching loop, creation loop, expiry, distance estimation, frontend list.
The distance loop mutates the very dicts stored in `tracking_state`, so the
final store takes the estimated record for every id present in the visible
overlay list. -/
def process_frame_core (frame_index : Int) (raw : List Det)
    (wings : List (String × ℚ)) (s : List Track) : FrameResult :=
  { dets := (frame_overlay frame_index raw wings s).map toFDet
    state := (expire_pass frame_index (frame_full_state frame_index raw s)).map
      (overlay_replace (frame_overlay frame_index raw wings s)) }

/-! ### Helper lemmas about folds, `setTrack` and the matching loop -/

theorem le_foldl_max (l : List Nat) (b : Nat) : b ≤ l.foldl max b := by
  induction l generalizing b with
  | nil => exact le_refl b
  | cons x xs ih => exact le_trans (le_max_left b x) (ih (max b x))

theorem mem_le_foldl_max {l : List Nat} {a : Nat} (h : a ∈ l) (b : Nat) :
    a ≤ l.foldl max b := by
  induction l generalizing b with
  | nil => cases h
  | cons x xs ih =>
      rcases List.mem_cons.mp h with h | h
      · subst h
        exact le_trans (le_max_right b a) (le_foldl_max xs (max b a))
      · exact ih h (max b x)

theorem foldl_max_mem_or_eq (l : List Nat) (b : Nat) :
    l.foldl max b = b ∨ l.foldl max b ∈ l := by
  induction l generalizing b with
  | nil => exact Or.inl rfl
  | cons x xs ih =>
      rw [List.foldl_cons]
      rcases ih (max b x) with h | h
      · rcases le_total x b with hx | hx
        · exact Or.inl (h.trans (max_eq_left hx))
        · exact Or.inr (List.mem_cons.mpr (Or.inl (h.trans (max_eq_right hx))))
      · exact Or.inr (List.mem_cons.mpr (Or.inr h))

theorem setTrack_mem {s : List Track} {v u : Track} (h : u ∈ setTrack s v) :
    u = v ∨ u ∈ s := by
  unfold setTrack at h
  by_cases hany : s.any (fun t => t.id == v.id)
  · rw [if_pos hany] at h
    obtain ⟨t, ht, hte⟩ := List.mem_map.mp h
    by_cases hid : t.id == v.id
    · rw [if_pos hid] at hte
      exact Or.inl hte.symm
    · rw [if_neg hid] at hte
      exact Or.inr (hte ▸ ht)
  · rw [if_neg hany] at h
    rcases List.mem_append.mp h with h | h
    · exact Or.inr h
    · exact Or.inl (List.mem_singleton.mp h)

theorem setTrack_mem_of_memId {s : List Track} {v u : Track}
    (hv : v.id ∈ s.map Track.id) (h : u ∈ setTrack s v) :
    u = v ∨ (u ∈ s ∧ u.id ≠ v.id) := by
  have hany : s.any (fun t => t.id == v.id) = true := by
    obtain ⟨t, ht, hte⟩ := List.mem_map.mp hv
    exact List.any_eq_true.mpr ⟨t, ht, by simp [hte]⟩
  unfold setTrack at h
  rw [if_pos hany] at h
  obtain ⟨t, ht, hte⟩ := List.mem_map.mp h
  by_cases hid : t.id == v.id
  · rw [if_pos hid] at hte
    exact Or.inl hte.symm
  · rw [if_neg hid] at hte
    refine Or.inr ⟨hte ▸ ht, ?_⟩
    rw [← hte]
    simpa using hid

theorem setTrack_ids_of_mem {s : List Track} {v : Track}
    (h : v.id ∈ s.map Track.id) :
    (setTrack s v).map Track.id = s.map Track.id := by
  have hany : s.any (fun t => t.id == v.id) = true := by
    obtain ⟨t, ht, hte⟩ := List.mem_map.mp h
    exact List.any_eq_true.mpr ⟨t, ht, by simp [hte]⟩
  unfold setTrack
  rw [if_pos hany, List.map_map]
  apply List.map_congr_left
  intro t _
  by_cases hid : t.id == v.id
  · simp only [Function.comp_apply, if_pos hid]
    have : t.id = v.id := by simpa using hid
    exact this.symm
  · simp only [Function.comp_apply, if_neg hid]

theorem setTrack_ids_sub {s : List Track} {v : Track} {a : Nat}
    (h : a ∈ (setTrack s v).map Track.id) :
    a ∈ s.map Track.id ∨ a = v.id := by
  obtain ⟨u, hu, hua⟩ := List.mem_map.mp h
  rcases setTrack_mem hu with rfl | hmem
  · exact Or.inr hua.symm
  · exact Or.inl (hua ▸ List.mem_map_of_mem Track.id hmem)

theorem setTrack_preserve {s : List Track} {v t : Track}
    (ht : t ∈ s) (hne : t.id ≠ v.id) : t ∈ setTrack s v := by
  unfold setTrack
  by_cases hany : s.any (fun x => x.id == v.id)
  · rw [if_pos hany]
    refine List.mem_map.mpr ⟨t, ht, ?_⟩
    rw [if_neg (by simpa using hne)]
  · rw [if_neg hany]
    exact List.mem_append.mpr (Or.inl ht)

theorem setTrack_any_false {s : List Track} {v : Track} {a : Nat}
    (h : s.any (fun t => t.id == a) = false) (hne : v.id ≠ a) :
    (setTrack s v).any (fun t => t.id == a) = false := by
  rw [List.any_eq_false] at h ⊢
  intro u hu
  rcases setTrack_mem hu with rfl | hmem
  · simpa using hne
  · exact h u hmem

theorem bestMatch_fold_mem {f : Int} {d : Det} {j : Nat} :
    ∀ (s : List Track) (acc : Option Nat × ℚ),
      ((s.foldl
          (fun best t =>
            if eligible f d t then
              let iou := calculate_iou d.bbox t.bbox
              if best.2 < iou ∧ TRACKING_IOU_THRESHOLD < iou then (some t.id, iou)
              else best
            else best)
          acc).1 = some j) →
      acc.1 = some j ∨ ∃ t ∈ s, t.id = j ∧ eligible f d t = true := by
  intro s
  induction s with
  | nil =>
      intro acc h
      exact Or.inl h
  | cons t rest ih =>
      intro acc h
      rw [List.foldl_cons] at h
      rcases ih _ h with hacc | ⟨u, hu, huj, hue⟩
      · by_cases hel : eligible f d t
        · rw [if_pos hel] at hacc
          by_cases hcond :
              acc.2 < calculate_iou d.bbox t.bbox ∧
                TRACKING_IOU_THRESHOLD < calculate_iou d.bbox t.bbox
          · simp only [if_pos hcond] at hacc
            refine Or.inr ⟨t, List.mem_cons_self t rest, ?_, hel⟩
            simpa using hacc
          · simp only [if_neg hcond] at hacc
            exact Or.inl hacc
        · rw [if_neg hel] at hacc
          exact Or.inl hacc
      · exact Or.inr ⟨u, List.mem_cons_of_mem t hu, huj, hue⟩

theorem bestMatch_mem {f : Int} {s : List Track} {d : Det} {j : Nat}
    (h : (bestMatch f s d).1 = some j) :
    ∃ t ∈ s, t.id = j ∧ eligible f d t = true := by
  unfold bestMatch at h
  rcases bestMatch_fold_mem s (none, 0) h with hacc | hmem
  · cases hacc
  · exact hmem

theorem find?_track {s : List Track} {j : Nat} {t0 : Track}
    (h : s.find? (fun t => t.id == j) = some t0) : t0 ∈ s ∧ t0.id = j :=
  ⟨List.mem_of_find?_eq_some h, by simpa using List.find?_some h⟩

theorem updateMatched_id (f : Int) (t : Track) (d : Det) :
    (updateMatched f t d).id = t.id := rfl

theorem updateMatched_lvf (f : Int) (t : Track) (d : Det) :
    (updateMatched f t d).last_visible_frame = f := rfl

/-- Case analysis for one step of the matching loop: either nothing matched,
or some track `t0` (found by id `j`, with an eligible witness `t1` of the
same id) is updated in both the store and the updates dict and `(i, j)` is
recorded. -/
theorem matchOne_cases (f : Int) (ms : MatchState) (i : Nat) (d : Det) :
    matchOne f ms i d = ms ∨
    ∃ j t0 t1, ms.tracks.find? (fun t => t.id == j) = some t0 ∧
      t1 ∈ ms.tracks ∧ t1.id = j ∧ eligible f d t1 = true ∧
      matchOne f ms i d =
        { tracks := setTrack ms.tracks (updateMatched f t0 d)
          updates := setTrack ms.updates (updateMatched f t0 d)
          matched := ms.matched ++ [(i, j)] } := by
  unfold matchOne
  split
  · exact Or.inl rfl
  next j hb =>
    split
    · exact Or.inl rfl
    next t0 hf =>
      obtain ⟨t1, ht1, hid, hel⟩ := bestMatch_mem hb
      exact Or.inr ⟨j, t0, t1, hf, ht1, hid, hel, rfl⟩

theorem matchOne_tracks_ids (f : Int) (ms : MatchState) (i : Nat) (d : Det) :
    (matchOne f ms i d).tracks.map Track.id = ms.tracks.map Track.id := by
  rcases matchOne_cases f ms i d with h | ⟨j, t0, t1, hf, _, _, _, h⟩
  · rw [h]
  · rw [h]
    apply setTrack_ids_of_mem
    rw [updateMatched_id]
    exact List.mem_map_of_mem Track.id (find?_track hf).1

/-- Invariant: every store entry whose id appears in the updates dict carries
the current frame stamp. -/
def stampedUpdates (f : Int) (ms : MatchState) : Prop :=
  ∀ u ∈ ms.tracks, ms.updates.any (fun x => x.id == u.id) = true →
    u.last_visible_frame = f

theorem matchOne_stamped {f : Int} {ms : MatchState} {i : Nat} {d : Det}
    (h : stampedUpdates f ms) : stampedUpdates f (matchOne f ms i d) := by
  rcases matchOne_cases f ms i d with he | ⟨j, t0, t1, hf, ht1, hid, hel, he⟩
  · rw [he]
    exact h
  · rw [he]
    intro w hw hany
    have hu_id_mem : (updateMatched f t0 d).id ∈ ms.tracks.map Track.id := by
      rw [updateMatched_id]
      exact List.mem_map_of_mem Track.id (find?_track hf).1
    rcases setTrack_mem_of_memId hu_id_mem hw with rfl | ⟨hwmem, hwne⟩
    · exact updateMatched_lvf f t0 d
    · obtain ⟨x, hx, hxid⟩ := List.any_eq_true.mp hany
      rcases setTrack_mem hx with rfl | hxmem
      · exact absurd ((by simpa using hxid) : (updateMatched f t0 d).id = w.id).symm hwne
      · exact h w hwmem (List.any_eq_true.mpr ⟨x, hxmem, hxid⟩)

theorem matchOne_updates_lvf {f : Int} {ms : MatchState} {i : Nat} {d : Det}
    (h : ∀ u ∈ ms.updates, u.last_visible_frame = f) :
    ∀ u ∈ (matchOne f ms i d).updates, u.last_visible_frame = f := by
  rcases matchOne_cases f ms i d with he | ⟨j, t0, t1, hf, ht1, hid, hel, he⟩
  · rw [he]
    exact h
  · rw [he]
    intro w hw
    rcases setTrack_mem hw with rfl | hmem
    · exact updateMatched_lvf f t0 d
    · exact h w hmem

theorem matchOne_bad_track {f : Int} {ms : MatchState} {i : Nat} {d : Det} {t : Track}
    (hnd : (ms.tracks.map Track.id).Nodup)
    (ht : t ∈ ms.tracks)
    (hbad : ¬ (f - TRACKING_FRAMES_TO_LOOK_BACK ≤ t.last_visible_frame))
    (hupd : ms.updates.any (fun x => x.id == t.id) = false) :
    t ∈ (matchOne f ms i d).tracks ∧
      (matchOne f ms i d).updates.any (fun x => x.id == t.id) = false := by
  rcases matchOne_cases f ms i d with he | ⟨j, t0, t1, hf, ht1, hid, hel, he⟩
  · rw [he]
    exact ⟨ht, hupd⟩
  · have hjne : j ≠ t.id := by
      intro hj
      have ht1t : t1 = t :=
        List.inj_on_of_nodup_map hnd ht1 ht (by rw [hid, hj])
      rw [ht1t] at hel
      unfold eligible at hel
      simp only [Bool.and_eq_true, decide_eq_true_eq] at hel
      exact hbad hel.2
    have hune : (updateMatched f t0 d).id ≠ t.id := by
      rw [updateMatched_id, (find?_track hf).2]
      exact hjne
    rw [he]
    exact ⟨setTrack_preserve ht (Ne.symm hune), setTrack_any_false hupd hune⟩

theorem matchOne_matched_cases (f : Int) (ms : MatchState) (i : Nat) (d : Det) :
    (matchOne f ms i d).matched = ms.matched ∨
    ∃ j, j ∈ ms.tracks.map Track.id ∧
      (matchOne f ms i d).matched = ms.matched ++ [(i, j)] := by
  rcases matchOne_cases f ms i d with he | ⟨j, t0, t1, hf, ht1, hid, hel, he⟩
  · rw [he]
    exact Or.inl rfl
  · rw [he]
    exact Or.inr ⟨j, hid ▸ List.mem_map_of_mem Track.id ht1, rfl⟩

/-! ### Matching-loop invariants -/

theorem match_loop_tracks_ids (f : Int) (dets : List Det) :
    ∀ (ms : MatchState) (i : Nat),
      (match_loop f ms i dets).tracks.map Track.id = ms.tracks.map Track.id := by
  induction dets with
  | nil => intro ms i; rfl
  | cons d rest ih =>
      intro ms i
      show (match_loop f (matchOne f ms i d) (i + 1) rest).tracks.map Track.id = _
      rw [ih, matchOne_tracks_ids]

theorem match_loop_stamped (f : Int) (dets : List Det) :
    ∀ (ms : MatchState) (i : Nat), stampedUpdates f ms →
      stampedUpdates f (match_loop f ms i dets) := by
  induction dets with
  | nil => intro ms i h; exact h
  | cons d rest ih =>
      intro ms i h
      exact ih (matchOne f ms i d) (i + 1) (matchOne_stamped h)

theorem match_loop_updates_lvf (f : Int) (dets : List Det) :
    ∀ (ms : MatchState) (i : Nat),
      (∀ u ∈ ms.updates, u.last_visible_frame = f) →
      ∀ u ∈ (match_loop f ms i dets).updates, u.last_visible_frame = f := by
  induction dets with
  | nil => intro ms i h; exact h
  | cons d rest ih =>
      intro ms i h
      exact ih (matchOne f ms i d) (i + 1) (matchOne_updates_lvf h)

theorem match_loop_bad_track (f : Int) (dets : List Det) :
    ∀ (ms : MatchState) (i : Nat) (t : Track),
      (ms.tracks.map Track.id).Nodup →
      t ∈ ms.tracks →
      ¬ (f - TRACKING_FRAMES_TO_LOOK_BACK ≤ t.last_visible_frame) →
      ms.updates.any (fun x => x.id == t.id) = false →
      t ∈ (match_loop f ms i dets).tracks ∧
        (match_loop f ms i dets).updates.any (fun x => x.id == t.id) = false := by
  induction dets with
  | nil => intro ms i t _ ht _ hupd; exact ⟨ht, hupd⟩
  | cons d rest ih =>
      intro ms i t hnd ht hbad hupd
      obtain ⟨ht', hupd'⟩ := matchOne_bad_track hnd ht hbad hupd
      have hnd' : ((matchOne f ms i d).tracks.map Track.id).Nodup := by
        rw [matchOne_tracks_ids]
        exact hnd
      exact ih (matchOne f ms i d) (i + 1) t hnd' ht' hbad hupd'

theorem match_loop_matched_facts (f : Int) (dets : List Det) :
    ∀ (ms : MatchState) (i : Nat),
      (∀ p ∈ ms.matched, p.1 < i) →
      ms.matched.Pairwise (fun p q : Nat × Nat => p.1 < q.1) →
      (∀ p ∈ ms.matched, p.2 ∈ ms.tracks.map Track.id) →
      (∀ p ∈ (match_loop f ms i dets).matched, p.1 < i + dets.length) ∧
        (match_loop f ms i dets).matched.Pairwise (fun p q : Nat × Nat => p.1 < q.1) ∧
        (∀ p ∈ (match_loop f ms i dets).matched, p.2 ∈ ms.tracks.map Track.id) := by
  induction dets with
  | nil =>
      intro ms i h1 h2 h3
      exact ⟨fun p hp => by have := h1 p hp; simpa using this, h2, h3⟩
  | cons d rest ih =>
      intro ms i h1 h2 h3
      have hids := matchOne_tracks_ids f ms i d
      have step :
          (∀ p ∈ (matchOne f ms i d).matched, p.1 < i + 1) ∧
          (matchOne f ms i d).matched.Pairwise (fun p q : Nat × Nat => p.1 < q.1) ∧
          (∀ p ∈ (matchOne f ms i d).matched, p.2 ∈ (matchOne f ms i d).tracks.map Track.id) := by
        rcases matchOne_matched_cases f ms i d with he | ⟨j, hj, he⟩
        · rw [he, hids]
          exact ⟨fun p hp => Nat.lt_succ_of_lt (h1 p hp), h2, h3⟩
        · rw [he, hids]
          refine ⟨?_, ?_, ?_⟩
          · intro p hp
            rcases List.mem_append.mp hp with hp | hp
            · exact Nat.lt_succ_of_lt (h1 p hp)
            · rw [List.mem_singleton.mp hp]
              exact Nat.lt_succ_self i
          · refine List.pairwise_append.mpr ⟨h2, List.pairwise_singleton _ _, ?_⟩
            intro a ha b hb
            rw [List.mem_singleton.mp hb]
            exact h1 a ha
          · intro p hp
            rcases List.mem_append.mp hp with hp | hp
            · exact h3 p hp
            · rw [List.mem_singleton.mp hp]
              exact hj
      have := ih (matchOne f ms i d) (i + 1) step.1 step.2.1 step.2.2
      show (∀ p ∈ (match_loop f (matchOne f ms i d) (i + 1) rest).matched,
          p.1 < i + (d :: rest).length) ∧ _ ∧ _
      refine ⟨?_, this.2.1, ?_⟩
      · intro p hp
        have := this.1 p hp
        simp only [List.length_cons]
        omega
      · intro p hp
        have := this.2.2 p hp
        rwa [hids] at this

/-! ### Creation-loop invariants -/

theorem setTrack_eq_append {s : List Track} {v : Track}
    (h : s.any (fun t => t.id == v.id) = false) : setTrack s v = s ++ [v] := by
  unfold setTrack
  simp [h]

theorem create_loop_nil (f : Int) (ms : MatchState) (n i : Nat) :
    create_loop f (ms, n) i [] = (ms, n) := rfl

theorem create_loop_cons (f : Int) (ms : MatchState) (n i : Nat) (d : Det)
    (rest : List Det) :
    create_loop f (ms, n) i (d :: rest) =
      if ms.matched.any (fun q => q.1 == i) then create_loop f (ms, n) (i + 1) rest
      else
        create_loop f
          ({ tracks := setTrack ms.tracks (newTrack f n d)
             updates := setTrack ms.updates (newTrack f n d)
             matched := ms.matched }, n + 1) (i + 1) rest := rfl

/-- The ids below the creation counter stay below it after one append. -/
theorem newTrack_bound {ms : MatchState} {n : Nat} (f : Int) (d : Det)
    (hb : ∀ a ∈ ms.tracks.map Track.id, a < n) :
    (ms.tracks.any (fun t => t.id == (newTrack f n d).id) = false) ∧
    (setTrack ms.tracks (newTrack f n d) = ms.tracks ++ [newTrack f n d]) ∧
    (∀ a ∈ (setTrack ms.tracks (newTrack f n d)).map Track.id, a < n + 1) := by
  have hnone : ms.tracks.any (fun t => t.id == (newTrack f n d).id) = false := by
    rw [List.any_eq_false]
    intro t ht
    have := hb t.id (List.mem_map_of_mem Track.id ht)
    show ¬ (t.id == n) = true
    simp only [beq_iff_eq]
    omega
  have happ := setTrack_eq_append hnone
  refine ⟨hnone, happ, ?_⟩
  rw [happ, List.map_append]
  intro a ha
  rcases List.mem_append.mp ha with ha | ha
  · exact Nat.lt_succ_of_lt (hb a ha)
  · simp only [List.map_cons, List.map_nil, List.mem_singleton] at ha
    rw [ha]
    exact Nat.lt_succ_self n

theorem create_loop_ids (f : Int) (dets : List Det) :
    ∀ (ms : MatchState) (n i : Nat),
      (∀ a ∈ ms.tracks.map Track.id, a < n) →
      ∃ k, (create_loop f (ms, n) i dets).1.tracks.map Track.id
            = ms.tracks.map Track.id ++ List.range' n k ∧
          (create_loop f (ms, n) i dets).2 = n + k := by
  induction dets with
  | nil =>
      intro ms n i _
      rw [create_loop_nil]
      exact ⟨0, by simp, by simp⟩
  | cons d rest ih =>
      intro ms n i hb
      rw [create_loop_cons]
      by_cases hm : ms.matched.any (fun q => q.1 == i)
      · rw [if_pos hm]
        exact ih ms n (i + 1) hb
      · rw [if_neg hm]
        obtain ⟨hnone, happ, hb'⟩ := newTrack_bound f d hb
        obtain ⟨k, hk1, hk2⟩ := ih
          { tracks := setTrack ms.tracks (newTrack f n d)
            updates := setTrack ms.updates (newTrack f n d)
            matched := ms.matched } (n + 1) (i + 1) hb'
        refine ⟨k + 1, ?_, ?_⟩
        · rw [hk1]
          show (setTrack ms.tracks (newTrack f n d)).map Track.id ++ _ = _
          rw [happ, List.map_append, List.append_assoc]
          rfl
        · rw [hk2]
          omega

theorem create_loop_stamped (f : Int) (dets : List Det) :
    ∀ (ms : MatchState) (n i : Nat),
      (∀ a ∈ ms.tracks.map Track.id, a < n) →
      stampedUpdates f ms →
      stampedUpdates f (create_loop f (ms, n) i dets).1 := by
  induction dets with
  | nil =>
      intro ms n i _ h
      rw [create_loop_nil]
      exact h
  | cons d rest ih =>
      intro ms n i hb h
      rw [create_loop_cons]
      by_cases hm : ms.matched.any (fun q => q.1 == i)
      · rw [if_pos hm]
        exact ih ms n (i + 1) hb h
      · rw [if_neg hm]
        obtain ⟨hnone, happ, hb'⟩ := newTrack_bound f d hb
        apply ih _ (n + 1) (i + 1) hb'
        intro w hw hany
        show w.last_visible_frame = f
        replace hw : w ∈ setTrack ms.tracks (newTrack f n d) := hw
        rw [happ] at hw
        rcases List.mem_append.mp hw with hw | hw
        · obtain ⟨x, hx, hxid⟩ := List.any_eq_true.mp hany
          rcases setTrack_mem hx with rfl | hxmem
          · exfalso
            have hxw : (newTrack f n d).id = w.id := by simpa using hxid
            have hwn := hb w.id (List.mem_map_of_mem Track.id hw)
            have : (newTrack f n d).id = n := rfl
            omega
          · exact h w hw (List.any_eq_true.mpr ⟨x, hxmem, hxid⟩)
        · rw [List.mem_singleton.mp hw]
          rfl

theorem create_loop_updates_lvf (f : Int) (dets : List Det) :
    ∀ (ms : MatchState) (n i : Nat),
      (∀ u ∈ ms.updates, u.last_visible_frame = f) →
      ∀ u ∈ (create_loop f (ms, n) i dets).1.updates, u.last_visible_frame = f := by
  induction dets with
  | nil =>
      intro ms n i h
      rw [create_loop_nil]
      exact h
  | cons d rest ih =>
      intro ms n i h
      rw [create_loop_cons]
      by_cases hm : ms.matched.any (fun q => q.1 == i)
      · rw [if_pos hm]
        exact ih ms n (i + 1) h
      · rw [if_neg hm]
        apply ih _ (n + 1) (i + 1)
        intro u hu
        rcases setTrack_mem hu with rfl | hmem
        · rfl
        · exact h u hmem

theorem create_loop_bad_track (f : Int) (dets : List Det) :
    ∀ (ms : MatchState) (n i : Nat) (t : Track),
      (∀ a ∈ ms.tracks.map Track.id, a < n) →
      t ∈ ms.tracks →
      ms.updates.any (fun x => x.id == t.id) = false →
      t ∈ (create_loop f (ms, n) i dets).1.tracks ∧
        (create_loop f (ms, n) i dets).1.updates.any (fun x => x.id == t.id) = false := by
  induction dets with
  | nil =>
      intro ms n i t _ ht hupd
      rw [create_loop_nil]
      exact ⟨ht, hupd⟩
  | cons d rest ih =>
      intro ms n i t hb ht hupd
      rw [create_loop_cons]
      by_cases hm : ms.matched.any (fun q => q.1 == i)
      · rw [if_pos hm]
        exact ih ms n (i + 1) t hb ht hupd
      · rw [if_neg hm]
        have htid : t.id < n := hb t.id (List.mem_map_of_mem Track.id ht)
        have hne : (newTrack f n d).id ≠ t.id := by
          show n ≠ t.id
          omega
        obtain ⟨hnone, happ, hb'⟩ := newTrack_bound f d hb
        apply ih _ (n + 1) (i + 1) t hb'
        · show t ∈ setTrack ms.tracks (newTrack f n d)
          rw [happ]
          exact List.mem_append.mpr (Or.inl ht)
        · exact setTrack_any_false hupd hne

/-! ### Shape lemmas for the distance step and the final store -/

theorem estimate_one_id (wings : List (String × ℚ)) (p0 : String × ℚ) (t : Track) :
    (estimate_one wings p0 t).id = t.id ∧
    (estimate_one wings p0 t).last_visible_frame = t.last_visible_frame := by
  unfold estimate_one
  split
  · exact ⟨rfl, rfl⟩
  · split
    · exact ⟨rfl, rfl⟩
    · exact ⟨rfl, rfl⟩

theorem estimate_distances_shape {wings : List (String × ℚ)} {l : List Track} :
    ∀ u' ∈ estimate_distances wings l,
      ∃ u ∈ l, u'.id = u.id ∧ u'.last_visible_frame = u.last_visible_frame := by
  intro u' hu'
  unfold estimate_distances at hu'
  split at hu'
  · exact ⟨u', hu', rfl, rfl⟩
  next p0 _ =>
    split at hu'
    · obtain ⟨u, hu, hue⟩ := List.mem_map.mp hu'
      obtain ⟨hid, hlvf⟩ := estimate_one_id wings p0 u
      exact ⟨u, hu, by rw [← hue]; exact hid, by rw [← hue]; exact hlvf⟩
    · exact ⟨u', hu', rfl, rfl⟩

/-- An entry of the expiry output comes from a store entry with the same id,
frame stamp and the kept/expired filter condition. -/
theorem expire_pass_mem {f : Int} {ms : MatchState} {v : Track}
    (hv : v ∈ expire_pass f ms) :
    ∃ x ∈ ms.tracks, v.id = x.id ∧ v.last_visible_frame = x.last_visible_frame ∧
      (ms.updates.any (fun u => u.id == v.id)
        || decide (f - v.last_visible_frame ≤ TRACKING_FRAMES_TO_LOOK_BACK)) = true := by
  unfold expire_pass at hv
  obtain ⟨hmem, hcond⟩ := List.mem_filter.mp hv
  obtain ⟨x, hx, hxe⟩ := List.mem_map.mp hmem
  refine ⟨x, hx, ?_, ?_, hcond⟩ <;>
    · rw [← hxe]
      by_cases hany : ms.updates.any (fun u => u.id == x.id)
      · rw [if_pos hany]
      · rw [if_neg hany]

/-- Replacing store entries by the same-id overlay records preserves ids. -/
theorem overlay_replace_id (overlay : List Track) (t : Track) :
    (overlay_replace overlay t).id = t.id := by
  unfold overlay_replace
  split
  · next u hf => simpa using List.find?_some hf
  · rfl

theorem overlay_replace_mem (overlay : List Track) (t : Track) :
    overlay_replace overlay t = t ∨ overlay_replace overlay t ∈ overlay := by
  unfold overlay_replace
  split
  · next u hf => exact Or.inr (List.mem_of_find?_eq_some hf)
  · exact Or.inl rfl

theorem process_frame_state_ids (f : Int) (raw : List Det)
    (wings : List (String × ℚ)) (s : List Track) :
    (process_frame_core f raw wings s).state.map Track.id
      = (expire_pass f (frame_full_state f raw s)).map Track.id := by
  show ((expire_pass f (frame_full_state f raw s)).map _).map Track.id = _
  rw [List.map_map]
  apply List.map_congr_left
  intro t _
  exact overlay_replace_id _ t

/-- The whole-store facts established by the matching and creation loops. -/
theorem frame_full_state_facts (f : Int) (raw : List Det) (s : List Track) :
    stampedUpdates f (frame_full_state f raw s) ∧
    (∀ u ∈ (frame_full_state f raw s).updates, u.last_visible_frame = f) ∧
    ∃ k, (frame_full_state f raw s).tracks.map Track.id
        = s.map Track.id ++ List.range' (next_id (frame_match_state f raw s).tracks) k := by
  have hmids : (frame_match_state f raw s).tracks.map Track.id = s.map Track.id :=
    match_loop_tracks_ids f (detections_for_tracking raw) ⟨s, [], []⟩ 0
  have hstamp1 : stampedUpdates f (frame_match_state f raw s) :=
    match_loop_stamped f (detections_for_tracking raw) ⟨s, [], []⟩ 0
      (fun u _ hany => by cases hany)
  have hlvf1 : ∀ u ∈ (frame_match_state f raw s).updates, u.last_visible_frame = f :=
    match_loop_updates_lvf f (detections_for_tracking raw) ⟨s, [], []⟩ 0
      (fun u hu => by cases hu)
  have hbound : ∀ a ∈ (frame_match_state f raw s).tracks.map Track.id,
      a < next_id (frame_match_state f raw s).tracks := by
    intro a ha
    have := mem_le_foldl_max ha 0
    unfold next_id
    omega
  refine ⟨?_, ?_, ?_⟩
  · exact create_loop_stamped f (detections_for_tracking raw) _ _ 0 hbound hstamp1
  · exact create_loop_updates_lvf f (detections_for_tracking raw) _ _ 0 hlvf1
  · obtain ⟨k, hk, _⟩ := create_loop_ids f (detections_for_tracking raw) _ _ 0 hbound
    exact ⟨k, by rw [← hmids]; exact hk⟩

/-- C6.  A track with `lastVisibleFrame = L` passes the matching-eligibility
gate exactly when the current frame index is at most `L + LOOKBACK`
(`LOOKBACK = TRACKING_FRAMES_TO_LOOK_BACK = 5`), hence is eligible at
`L + 5` and not at `L + 6`; after any frame call every surviving track
satisfies `frame - lastVisibleFrame ≤ LOOKBACK`, so a track is deleted
during the frame in which the gap first exceeds `LOOKBACK`; and the deleted
track's id is absent from the resulting store (no tombstones — it can only
come back as a fresh creation in a later call). -/
theorem c6_lookback_eligibility_and_eviction :
    (∀ (t : Track) (d : Det) (cur : Int), t.cls = d.cls →
      (eligible cur d t = true
        ↔ cur ≤ t.last_visible_frame + TRACKING_FRAMES_TO_LOOK_BACK)) ∧
    (∀ (f : Int) (raw : List Det) (wings : List (String × ℚ)) (s : List Track),
      (s.map Track.id).Nodup →
      (∀ w ∈ (process_frame_core f raw wings s).state,
        f - w.last_visible_frame ≤ TRACKING_FRAMES_TO_LOOK_BACK) ∧
      (∀ t ∈ s, TRACKING_FRAMES_TO_LOOK_BACK < f - t.last_visible_frame →
        t.id ∉ (process_frame_core f raw wings s).state.map Track.id)) := by
  constructor
  · intro t d cur hcls
    unfold eligible
    simp only [Bool.and_eq_true, beq_iff_eq, decide_eq_true_eq, hcls, true_and]
    unfold TRACKING_FRAMES_TO_LOOK_BACK
    omega
  · intro f raw wings s hnd
    obtain ⟨hstamp, hulvf, k, hids⟩ := frame_full_state_facts f raw s
    constructor
    · intro w hw
      show f - w.last_visible_frame ≤ TRACKING_FRAMES_TO_LOOK_BACK
      obtain ⟨v, hv, hve⟩ := List.mem_map.mp hw
      rcases overlay_replace_mem (frame_overlay f raw wings s) v with hcase | hcase
      · rw [hve] at hcase
        obtain ⟨x, hx, hxid, hxlvf, hcond⟩ := expire_pass_mem hv
        rcases Bool.or_eq_true _ _ |>.mp hcond with hany | hdec
        · have hxf : x.last_visible_frame = f := by
            apply hstamp x hx
            rw [← hxid]
            exact hany
          rw [hcase, hxlvf, hxf]
          unfold TRACKING_FRAMES_TO_LOOK_BACK
          omega
        · rw [hcase]
          exact of_decide_eq_true hdec
      · rw [hve] at hcase
        have hcase' : w ∈ estimate_distances wings
            ((frame_full_state f raw s).updates.filter (fun t => t.is_visible)) := hcase
        obtain ⟨u0, hu0, _, hulvf0⟩ := estimate_distances_shape w hcase'
        have hu0f : u0.last_visible_frame = f :=
          hulvf u0 (List.mem_filter.mp hu0).1
        rw [hulvf0, hu0f]
        unfold TRACKING_FRAMES_TO_LOOK_BACK
        omega
    · intro t ht hgap hmem
      have hbad : ¬ (f - TRACKING_FRAMES_TO_LOOK_BACK ≤ t.last_visible_frame) := by
        omega
      obtain ⟨ht1, hupd1⟩ := match_loop_bad_track f (detections_for_tracking raw)
        ⟨s, [], []⟩ 0 t hnd ht hbad rfl
      have hmids : (frame_match_state f raw s).tracks.map Track.id = s.map Track.id :=
        match_loop_tracks_ids f (detections_for_tracking raw) ⟨s, [], []⟩ 0
      have hbound : ∀ a ∈ (frame_match_state f raw s).tracks.map Track.id,
          a < next_id (frame_match_state f raw s).tracks := by
        intro a ha
        have := mem_le_foldl_max ha 0
        unfold next_id
        omega
      obtain ⟨ht2, hupd2⟩ := create_loop_bad_track f (detections_for_tracking raw)
        (frame_match_state f raw s) (next_id (frame_match_state f raw s).tracks)
        0 t hbound ht1 hupd1
      have ht2' : t ∈ (frame_full_state f raw s).tracks := ht2
      have hupd2' :
          ((frame_full_state f raw s).updates.any fun x => x.id == t.id) = false := hupd2
      have hnd2 : ((frame_full_state f raw s).tracks.map Track.id).Nodup := by
        rw [hids]
        refine List.Nodup.append hnd (List.nodup_range' ..) ?_
        intro a ha ha'
        have h1 : a < next_id (frame_match_state f raw s).tracks := by
          apply hbound
          rw [hmids]
          exact ha
        have h2 := (List.mem_range'_1.mp ha').1
        omega
      rw [process_frame_state_ids] at hmem
      obtain ⟨v, hv, hvid⟩ := List.mem_map.mp hmem
      obtain ⟨x, hx, hxid, hxlvf, hcond⟩ := expire_pass_mem hv
      have hxt : x = t := by
        apply List.inj_on_of_nodup_map hnd2 hx ht2'
        rw [← hxid]
        exact hvid
      rcases Bool.or_eq_true _ _ |>.mp hcond with hany | hdec
      · rw [hvid] at hany
        rw [hany] at hupd2'
        simp at hupd2'
      · have hle : f - v.last_visible_frame ≤ TRACKING_FRAMES_TO_LOOK_BACK :=
          of_decide_eq_true hdec
        rw [hxlvf, hxt] at hle
        omega

/-- Concrete inputs for the C6 witness: a "gull" track last seen at frame 0,
processed at frame 7 (gap 7 > 5). -/
def c6_track : Track :=
  { id := 1, cls := "gull", bbox := ⟨0, 0, 10, 10⟩, confidence := 9/10,
    bbox_size_history := [50], visibility_count := 1, last_visible_frame := 0,
    max_bbox_geometric_mean := 50, is_visible := true, distance_m := none }

def c6_det : Det :=
  { bbox := ⟨0, 0, 10, 10⟩, cls := "gull", confidence := 9/10, geometric_mean := 50 }

/-- Witness for C6: the eligibility gate at frames 5 and 6 for a track last
seen at frame 0, and eviction of that track when frame 7 is processed. -/
theorem c6_lookback_witness :
    (eligible 5 c6_det c6_track = true
      ↔ (5 : Int) ≤ c6_track.last_visible_frame + TRACKING_FRAMES_TO_LOOK_BACK) ∧
    (∀ w ∈ (process_frame_core 7 [] [] [c6_track]).state,
      (7 : Int) - w.last_visible_frame ≤ TRACKING_FRAMES_TO_LOOK_BACK) ∧
    c6_track.id ∉ (process_frame_core 7 [] [] [c6_track]).state.map Track.id :=
  ⟨c6_lookback_eligibility_and_eviction.1 c6_track c6_det 5 rfl,
   (c6_lookback_eligibility_and_eviction.2 7 [] [] [c6_track] (by decide)).1,
   (c6_lookback_eligibility_and_eviction.2 7 [] [] [c6_track] (by decide)).2
     c6_track (List.mem_singleton.mpr rfl) (by decide)⟩

/-! ### C1: greedy matching -/

/-- Concrete inputs for C1: a store holding one "gull" track and a frame with
two identical core "gull" detections on the same box. -/
def c1_track : Track :=
  { id := 1, cls := "gull", bbox := ⟨0, 0, 10, 10⟩, confidence := 9/10,
    bbox_size_history := [50], visibility_count := 1, last_visible_frame := 0,
    max_bbox_geometric_mean := 50, is_visible := true, distance_m := none }

def c1_det : Det :=
  { bbox := ⟨0, 0, 10, 10⟩, cls := "gull", confidence := 9/10, geometric_mean := 50 }

/-- Counterexample to C1 as stated.  The matching loop never excludes an
already-matched track: processing frame 1 with two identical detections, both
detection 0 and detection 1 are matched to track 1 (the matched list is
`[(0, 1), (1, 1)]`), so "once a detection has been matched to a track, no
later detection in the same frame's list is matched to that same track" is
false at this input. -/
theorem c1_counterexample :
    (match_loop 1 ⟨[c1_track], [], []⟩ 0 (detections_for_tracking [c1_det, c1_det])).matched
      = [(0, 1), (1, 1)] ∧
    ¬ ((match_loop 1 ⟨[c1_track], [], []⟩ 0
        (detections_for_tracking [c1_det, c1_det])).matched.Pairwise
        (fun p q : Nat × Nat => p.2 ≠ q.2)) := by
  constructor
  · decide
  · decide

/-- C1 (amended).  In each frame's matching loop, every detection is matched
to at most one track (the matched pairs carry strictly increasing detection
indices, so no detection index appears twice), and every matched track id is
the id of a store entry; however a track may be matched by more than one
detection of the same frame, because matched tracks are not excluded from
later detections' candidate sets (each later match overwrites the track's
state from that detection). -/
theorem c1_greedy_matching_amended (f : Int) (s : List Track) (dets : List Det) :
    (match_loop f ⟨s, [], []⟩ 0 dets).matched.Pairwise
      (fun p q : Nat × Nat => p.1 < q.1) ∧
    ∀ p ∈ (match_loop f ⟨s, [], []⟩ 0 dets).matched, p.2 ∈ s.map Track.id := by
  have h := match_loop_matched_facts f dets ⟨s, [], []⟩ 0
    (fun p hp => by cases hp) List.Pairwise.nil (fun p hp => by cases hp)
  exact ⟨h.2.1, h.2.2⟩

/-- Witness for the amended C1 at the concrete double-match input. -/
theorem c1_greedy_matching_amended_witness :
    (match_loop 1 ⟨[c1_track], [], []⟩ 0
      (detections_for_tracking [c1_det, c1_det])).matched.Pairwise
      (fun p q : Nat × Nat => p.1 < q.1) ∧
    ((0, 1) : Nat × Nat).2 ∈ [c1_track].map Track.id :=
  ⟨(c1_greedy_matching_amended 1 [c1_track] (detections_for_tracking [c1_det, c1_det])).1,
   (c1_greedy_matching_amended 1 [c1_track] (detections_for_tracking [c1_det, c1_det])).2
     (0, 1) (by decide)⟩

/-! ### C3: identity assignment -/

/-- Concrete detections for the C3 runs: two core "gull" detections at
disjoint positions (IoU 0 between them). -/
def c3_near : Det :=
  { bbox := ⟨0, 0, 10, 10⟩, cls := "gull", confidence := 9/10, geometric_mean := 10 }

def c3_far : Det :=
  { bbox := ⟨100, 100, 110, 110⟩, cls := "gull", confidence := 9/10, geometric_mean := 10 }

/-- Store after frame 0 with both detections: tracks 1 and 2. -/
def c3_s1 : List Track := (process_frame_core 0 [c3_near, c3_far] [] []).state

/-- Store after frames 1-6 with only the near detection: track 2 is evicted
at frame 6 (gap 6 > 5). -/
def c3_s7 : List Track :=
  ([1, 2, 3, 4, 5, 6] : List Int).foldl
    (fun s n => (process_frame_core n [c3_near] [] s).state) c3_s1

/-- Store after frame 7 with both detections again: the far detection spawns
a fresh track whose id is `max(existing) + 1 = 2` — the id deleted one frame
earlier. -/
def c3_s8 : List Track := (process_frame_core 7 [c3_near, c3_far] [] c3_s7).state

set_option maxRecDepth 8000 in
/-- Counterexample to C3 as stated.  Identity 2 is assigned at frame 0,
deleted by frame 6, and assigned again to a brand-new track at frame 7
(visibility streak 1, last seen at frame 7), so identities are neither
strictly increasing across the whole call sequence nor never reused after
deletion. -/
theorem c3_counterexample :
    c3_s1.map Track.id = [1, 2] ∧
    c3_s7.map Track.id = [1] ∧
    c3_s8.map Track.id = [1, 2] ∧
    (∃ u ∈ c3_s8, u.id = 2 ∧ u.visibility_count = 1 ∧ u.last_visible_frame = 7) := by
  refine ⟨by decide, by decide, by decide, by decide⟩

/-- C3 (amended).  The next identity is `max(existing) + 1`, or `1` when the
store is empty; and within one frame-processing call the newly created tracks
receive the consecutive identities `next, next + 1, …` (strictly increasing,
all larger than every identity present when the creation pass starts).  An
identity may be reused after a deletion that lowers the maximum — it is not
reserved forever, contrary to the original claim. -/
theorem c3_identity_assignment_amended :
    (∀ s : List Track,
      (s = [] → next_id s = 1) ∧
      (s ≠ [] → (next_id s - 1) ∈ s.map Track.id ∧
        ∀ a ∈ s.map Track.id, a ≤ next_id s - 1)) ∧
    (∀ (f : Int) (ms : MatchState) (i : Nat) (dets : List Det),
      (∀ a ∈ ms.tracks.map Track.id, a < next_id ms.tracks) ∧
      ∃ k, (create_loop f (ms, next_id ms.tracks) i dets).1.tracks.map Track.id
          = ms.tracks.map Track.id ++ List.range' (next_id ms.tracks) k) := by
  have hbound : ∀ ms : MatchState, ∀ a ∈ ms.tracks.map Track.id, a < next_id ms.tracks := by
    intro ms a ha
    have := mem_le_foldl_max ha 0
    unfold next_id
    omega
  constructor
  · intro s
    constructor
    · intro hs
      subst hs
      rfl
    · intro hs
      have hids : s.map Track.id ≠ [] := by
        cases s with
        | nil => exact absurd rfl hs
        | cons hd tl => simp
      constructor
      · show (s.map Track.id).foldl max 0 + 1 - 1 ∈ s.map Track.id
        rcases foldl_max_mem_or_eq (s.map Track.id) 0 with h0 | hmem
        · cases hh : s.map Track.id with
          | nil => exact absurd hh hids
          | cons a rest =>
              rw [hh] at h0
              have ha : a ∈ (a :: rest) := List.mem_cons_self a rest
              have hle := mem_le_foldl_max ha 0
              have ha0 : a = 0 := by omega
              simp only [Nat.add_sub_cancel]
              rw [h0, ← ha0]
              exact ha
        · simpa using hmem
      · intro a ha
        show a ≤ (s.map Track.id).foldl max 0 + 1 - 1
        have := mem_le_foldl_max ha 0
        omega
  · intro f ms i dets
    exact ⟨hbound ms, by
      obtain ⟨k, hk, _⟩ := create_loop_ids f dets ms (next_id ms.tracks) i (hbound ms)
      exact ⟨k, hk⟩⟩

set_option maxRecDepth 8000 in
/-- Witness for the amended C3 at the concrete stores of the C3 run. -/
theorem c3_identity_assignment_amended_witness :
    next_id ([] : List Track) = 1 ∧
    ((next_id c3_s1 - 1) ∈ c3_s1.map Track.id ∧
      ∀ a ∈ c3_s1.map Track.id, a ≤ next_id c3_s1 - 1) ∧
    (∃ k, (create_loop 7 (⟨c3_s7, [], []⟩, next_id c3_s7) 0 [c3_far]).1.tracks.map Track.id
        = c3_s7.map Track.id ++ List.range' (next_id c3_s7) k) :=
  ⟨(c3_identity_assignment_amended.1 []).1 rfl,
   (c3_identity_assignment_amended.1 c3_s1).2 (by decide),
   (c3_identity_assignment_amended.2 7 ⟨c3_s7, [], []⟩ 0 [c3_far]).2⟩

/-! ### C7: distance estimation -/

/-- C7.  For every live track whose class label is present in the wingspan
table (with a known positive wingspan `w`) and whose cumulative maximum
geometric size is positive, the estimator sets
`distance = (w / seagullW) * (refPixels / maxGm) * refDistance`; when the
maximum geometric size is `≤ 0` the track is returned unchanged (the
`distance_m` field is left unset by this call); and for a fixed class and
fixed reference configuration the estimate strictly decreases as the maximum
geometric size increases.  The positivity of the track wingspan and of the
seagull reference are the preconditions the code checks before assigning
(detector.py lines 312-326). -/
theorem c7_distance_estimation :
    (∀ (wings : List (String × ℚ)) (p0 p1 : String × ℚ) (t : Track),
      wings.find? (fun p => p.1 == "seagull") = some p0 → 0 < p0.2 →
      wings.find? (fun q => q.1 == t.cls) = some p1 → 0 < p1.2 →
      (0 < t.max_bbox_geometric_mean →
        estimate_distances wings [t]
          = [{ t with distance_m := some (p1.2 / p0.2
              * (SEAGULL_REF_BBOX_GEOMETRIC_MEAN_PIXELS / t.max_bbox_geometric_mean)
              * SEAGULL_REF_DISTANCE_M) }]) ∧
      (t.max_bbox_geometric_mean ≤ 0 → estimate_distances wings [t] = [t])) ∧
    (∀ (w sref m1 m2 : ℚ), 0 < w → 0 < sref → 0 < m1 → m1 < m2 →
      w / sref * (SEAGULL_REF_BBOX_GEOMETRIC_MEAN_PIXELS / m2) * SEAGULL_REF_DISTANCE_M
        < w / sref * (SEAGULL_REF_BBOX_GEOMETRIC_MEAN_PIXELS / m1)
            * SEAGULL_REF_DISTANCE_M) := by
  constructor
  · intro wings p0 p1 t hp0 hp0pos hp1 hp1pos
    have hwne : wings ≠ [] := by
      intro hw
      rw [hw] at hp0
      cases hp0
    have hgate : wings ≠ [] ∧ 0 < SEAGULL_REF_BBOX_GEOMETRIC_MEAN_PIXELS ∧ 0 < p0.2 :=
      ⟨hwne, by norm_num [SEAGULL_REF_BBOX_GEOMETRIC_MEAN_PIXELS], hp0pos⟩
    constructor
    · intro hm
      unfold estimate_distances
      rw [hp0]
      show (if wings ≠ [] ∧ 0 < SEAGULL_REF_BBOX_GEOMETRIC_MEAN_PIXELS ∧ 0 < p0.2 then
          List.map (estimate_one wings p0) [t] else [t]) = _
      rw [if_pos hgate]
      show [estimate_one wings p0 t] = _
      unfold estimate_one
      rw [hp1]
      show [if 0 < t.max_bbox_geometric_mean ∧ 0 < p1.2 then
          { t with distance_m := some (p1.2 / p0.2
              * (SEAGULL_REF_BBOX_GEOMETRIC_MEAN_PIXELS / t.max_bbox_geometric_mean)
              * SEAGULL_REF_DISTANCE_M) } else t] = _
      rw [if_pos ⟨hm, hp1pos⟩]
    · intro hm
      unfold estimate_distances
      rw [hp0]
      show (if wings ≠ [] ∧ 0 < SEAGULL_REF_BBOX_GEOMETRIC_MEAN_PIXELS ∧ 0 < p0.2 then
          List.map (estimate_one wings p0) [t] else [t]) = [t]
      rw [if_pos hgate]
      show [estimate_one wings p0 t] = [t]
      unfold estimate_one
      rw [hp1]
      show [if 0 < t.max_bbox_geometric_mean ∧ 0 < p1.2 then
          { t with distance_m := some (p1.2 / p0.2
              * (SEAGULL_REF_BBOX_GEOMETRIC_MEAN_PIXELS / t.max_bbox_geometric_mean)
              * SEAGULL_REF_DISTANCE_M) } else t] = [t]
      rw [if_neg (by intro hc; exact absurd hc.1 (not_lt.mpr hm))]
  · intro w sref m1 m2 hw hs hm1 hm12
    have ha : 0 < w / sref := div_pos hw hs
    have hd : SEAGULL_REF_BBOX_GEOMETRIC_MEAN_PIXELS / m2
        < SEAGULL_REF_BBOX_GEOMETRIC_MEAN_PIXELS / m1 :=
      div_lt_div_of_pos_left (by norm_num [SEAGULL_REF_BBOX_GEOMETRIC_MEAN_PIXELS])
        hm1 hm12
    have hmul : w / sref * (SEAGULL_REF_BBOX_GEOMETRIC_MEAN_PIXELS / m2)
        < w / sref * (SEAGULL_REF_BBOX_GEOMETRIC_MEAN_PIXELS / m1) :=
      mul_lt_mul_of_pos_left hd ha
    exact mul_lt_mul_of_pos_right hmul (by norm_num [SEAGULL_REF_DISTANCE_M])

/-- Concrete wingspan table and track for the C7 witness. -/
def c7_wings : List (String × ℚ) := [("seagull", 1/2), ("gull", 1)]

def c7_track : Track :=
  { id := 1, cls := "gull", bbox := ⟨0, 0, 30, 15⟩, confidence := 9/10,
    bbox_size_history := [21], visibility_count := 1, last_visible_frame := 0,
    max_bbox_geometric_mean := 21, is_visible := true, distance_m := none }

/-- Witness for C7: with wingspans seagull ↦ 0.5 m and gull ↦ 1 m, a gull
track of maximum geometric size 21 gets distance (1/0.5)·(42/21)·40 = 160 m,
and the formula decreases when the size grows from 21 to 42. -/
theorem c7_distance_estimation_witness :
    estimate_distances c7_wings [c7_track]
      = [{ c7_track with distance_m := some ((("gull", (1 : ℚ)).2 / ("seagull", (1 : ℚ)/2).2
          * (SEAGULL_REF_BBOX_GEOMETRIC_MEAN_PIXELS / c7_track.max_bbox_geometric_mean)
          * SEAGULL_REF_DISTANCE_M)) }] ∧
    ((1 : ℚ) / ((1 : ℚ)/2) * (SEAGULL_REF_BBOX_GEOMETRIC_MEAN_PIXELS / 42)
        * SEAGULL_REF_DISTANCE_M
      < (1 : ℚ) / ((1 : ℚ)/2) * (SEAGULL_REF_BBOX_GEOMETRIC_MEAN_PIXELS / 21)
          * SEAGULL_REF_DISTANCE_M) :=
  ⟨(c7_distance_estimation.1 c7_wings ("seagull", (1 : ℚ)/2) ("gull", (1 : ℚ)) c7_track
      (by decide) (by decide) (by decide) (by decide)).1 (by decide),
   c7_distance_estimation.2 1 ((1 : ℚ)/2) 21 42 (by decide) (by decide) (by decide)
     (by decide)⟩

/-! ### Chunk analysis (`analyze_video_chunk`, detector.py lines 352-386)

The external frame source + model is abstracted as a function
`Nat → Option (List Det)`: `none` models a frame that cannot be read (or a
video that cannot be opened for that frame). -/

/-- `process_video_frame_with_tracking` at the call boundary (detector.py
lines 146-350): returns the frontend list, the updated store and an optional
error message; on a read failure the store is returned unchanged together
with an error string, as in the source (lines 154-163). -/
def process_video_frame_with_tracking (frameSource : Nat → Option (List Det))
    (frame_index : Nat) (wings : List (String × ℚ)) (s : List Track) :
    List FDet × List Track × Option String :=
  match frameSource frame_index with
  | none => ([], s, some "Could not read frame.")
  | some raw =>
      ((process_frame_core (Int.ofNat frame_index) raw wings s).dets,
        (process_frame_core (Int.ofNat frame_index) raw wings s).state, none)

/-- The processed frame range `range(start_frame, end_frame)` with
`end_frame = min(start_frame + num_frames, total_frames)` (detector.py lines
367 and 375). -/
def frame_range (start_frame num_frames total_frames : Nat) : List Nat :=
  List.range' start_frame (min (start_frame + num_frames) total_frames - start_frame)

/-- Result of a chunk analysis: the per-class aggregated detection counts
(a Python dict in insertion order) and the final local tracking state. -/
structure ChunkResult where
  aggregated : List (String × Nat)
  final_state : List Track
deriving DecidableEq

/-- Body of the chunk loop (detector.py lines 375-385): process the frame; on
error skip it (the error is only printed); otherwise add one count per
detection instance under its class. -/
def chunk_step (frameSource : Nat → Option (List Det)) (wings : List (String × ℚ))
    (acc : ChunkResult) (frame_index : Nat) : ChunkResult :=
  match process_video_frame_with_tracking frameSource frame_index wings acc.final_state with
  | (_, s', some _) => { aggregated := acc.aggregated, final_state := s' }
  | (dets, s', none) =>
      { aggregated := tally acc.aggregated (dets.map (fun d => d.cls))
        final_state := s' }

def chunk_loop (frameSource : Nat → Option (List Det)) (wings : List (String × ℚ))
    (frames : List Nat) (acc : ChunkResult) : ChunkResult :=
  frames.foldl (chunk_step frameSource wings) acc

/-- `analyze_video_chunk` (detector.py lines 352-386).  The local state starts
from `copy.deepcopy(initial_tracking_state)`, which in this value-level
embedding is the same value as the initial state (the heap-level model of the
copy is `analyze_video_chunk_ref` below). -/
def analyze_video_chunk (frameSource : Nat → Option (List Det))
    (start_frame num_frames total_frames : Nat) (wings : List (String × ℚ))
    (initial_tracking_state : List Track) : ChunkResult :=
  chunk_loop frameSource wings (frame_range start_frame num_frames total_frames)
    { aggregated := [], final_state := initial_tracking_state }

/-- The concatenated frontend outputs of the successfully processed frames,
threading the tracking state exactly as the chunk loop does. -/
def chunk_outputs (frameSource : Nat → Option (List Det)) (wings : List (String × ℚ)) :
    List Nat → List Track → List FDet
  | [], _ => []
  | fi :: rest, s =>
      (process_video_frame_with_tracking frameSource fi wings s).1
        ++ chunk_outputs frameSource wings rest
            (process_video_frame_with_tracking frameSource fi wings s).2.1

/-- The tracking state threaded through the chunk loop. -/
def chunk_state (frameSource : Nat → Option (List Det)) (wings : List (String × ℚ)) :
    List Nat → List Track → List Track
  | [], s => s
  | fi :: rest, s =>
      chunk_state frameSource wings rest
        (process_video_frame_with_tracking frameSource fi wings s).2.1

theorem tally_append (ag : List (String × Nat)) (l1 l2 : List String) :
    tally (tally ag l1) l2 = tally ag (l1 ++ l2) := by
  unfold tally
  rw [List.foldl_append]

theorem chunk_loop_eq (frameSource : Nat → Option (List Det))
    (wings : List (String × ℚ)) :
    ∀ (frames : List Nat) (ag : List (String × Nat)) (s : List Track),
      chunk_loop frameSource wings frames ⟨ag, s⟩
        = ⟨tally ag ((chunk_outputs frameSource wings frames s).map (fun d => d.cls)),
            chunk_state frameSource wings frames s⟩ := by
  intro frames
  induction frames with
  | nil => intro ag s; rfl
  | cons fi rest ih =>
      intro ag s
      show chunk_loop frameSource wings rest (chunk_step frameSource wings ⟨ag, s⟩ fi) = _
      cases hfs : frameSource fi with
      | none =>
          have hp : process_video_frame_with_tracking frameSource fi wings s
              = ([], s, some "Could not read frame.") := by
            unfold process_video_frame_with_tracking
            rw [hfs]
          have hstep : chunk_step frameSource wings ⟨ag, s⟩ fi = ⟨ag, s⟩ := by
            unfold chunk_step
            rw [show (⟨ag, s⟩ : ChunkResult).final_state = s from rfl, hp]
          have houts : chunk_outputs frameSource wings (fi :: rest) s
              = chunk_outputs frameSource wings rest s := by
            show (process_video_frame_with_tracking frameSource fi wings s).1
              ++ chunk_outputs frameSource wings rest
                  (process_video_frame_with_tracking frameSource fi wings s).2.1 = _
            rw [hp]
            rfl
          have hst : chunk_state frameSource wings (fi :: rest) s
              = chunk_state frameSource wings rest s := by
            show chunk_state frameSource wings rest
                (process_video_frame_with_tracking frameSource fi wings s).2.1 = _
            rw [hp]
          rw [hstep, houts, hst]
          exact ih ag s
      | some raw =>
          have hp : process_video_frame_with_tracking frameSource fi wings s
              = ((process_frame_core (Int.ofNat fi) raw wings s).dets,
                  (process_frame_core (Int.ofNat fi) raw wings s).state, none) := by
            unfold process_video_frame_with_tracking
            rw [hfs]
          have hstep : chunk_step frameSource wings ⟨ag, s⟩ fi
              = ⟨tally ag ((process_frame_core (Int.ofNat fi) raw wings s).dets.map
                  (fun d => d.cls)),
                 (process_frame_core (Int.ofNat fi) raw wings s).state⟩ := by
            unfold chunk_step
            rw [show (⟨ag, s⟩ : ChunkResult).final_state = s from rfl, hp]
          have houts : chunk_outputs frameSource wings (fi :: rest) s
              = (process_frame_core (Int.ofNat fi) raw wings s).dets
                ++ chunk_outputs frameSource wings rest
                    (process_frame_core (Int.ofNat fi) raw wings s).state := by
            show (process_video_frame_with_tracking frameSource fi wings s).1
              ++ chunk_outputs frameSource wings rest
                  (process_video_frame_with_tracking frameSource fi wings s).2.1 = _
            rw [hp]
          have hst : chunk_state frameSource wings (fi :: rest) s
              = chunk_state frameSource wings rest
                  (process_frame_core (Int.ofNat fi) raw wings s).state := by
            show chunk_state frameSource wings rest
                (process_video_frame_with_tracking frameSource fi wings s).2.1 = _
            rw [hp]
          rw [hstep, houts, hst,
            ih (tally ag ((process_frame_core (Int.ofNat fi) raw wings s).dets.map
              (fun d => d.cls))) (process_frame_core (Int.ofNat fi) raw wings s).state,
            List.map_append, tally_append]

/-- C2 (amended).  `analyze_video_chunk` runs the Frame Processor sequentially
over `[start, min(start + window, totalFrames))` and returns, for every class
`c`, the total number of detection instances of class `c` across the
successfully processed frames — *not* a count of distinct track identities.
(The distinct-identity and longest-streak statistics of the analysis endpoint
are computed by a separate tracker loop in `app.py` lines 237-306, outside the
Frame Processor's results.) -/
theorem c2_chunk_aggregate_amended (frameSource : Nat → Option (List Det))
    (wings : List (String × ℚ)) (start_frame num_frames total_frames : Nat)
    (init : List Track) (c : String) :
    lookupN (analyze_video_chunk frameSource start_frame num_frames total_frames
        wings init).aggregated c
      = ((chunk_outputs frameSource wings
          (frame_range start_frame num_frames total_frames) init).map
            (fun d => d.cls)).count c := by
  unfold analyze_video_chunk
  rw [chunk_loop_eq]
  show lookupN (tally [] _) c = _
  rw [lookupN_tally, lookupN_nil, Nat.zero_add]

/-- Concrete input for the C2 counterexample: the same core "gull" detection
on every frame. -/
def c2_det : Det :=
  { bbox := ⟨0, 0, 10, 10⟩, cls := "gull", confidence := 9/10, geometric_mean := 50 }

def c2_fs : Nat → Option (List Det) := fun _ => some [c2_det]

set_option maxRecDepth 8000 in
/-- Counterexample to C2 as stated.  Over a 2-frame window the same bird is
tracked as the single identity 1, so the number of distinct track identities
for "gull" is 1; but the chunk-analysis call returns 2 for "gull" (one count
per detection instance), so the returned per-class value is not the distinct
identity count the claim describes. -/
theorem c2_counterexample :
    (analyze_video_chunk c2_fs 0 2 10 [] []).aggregated = [("gull", 2)] ∧
    ((chunk_outputs c2_fs [] (frame_range 0 2 10) []).map
        (fun d => d.tracked_id)).dedup = [1] ∧
    lookupN (analyze_video_chunk c2_fs 0 2 10 [] []).aggregated "gull"
      ≠ ((chunk_outputs c2_fs [] (frame_range 0 2 10) []).map
          (fun d => d.tracked_id)).dedup.length := by
  refine ⟨by decide, by decide, by decide⟩

/-- C10.  During a chunk-analysis call, a frame the frame source cannot
deliver (`frameSource fi = none`, covering an unreadable frame or an
unopenable video for that index) is silently skipped: the loop continues with
the state unchanged, and the whole chunk result — aggregate and final state,
with no error component — equals that of running the loop over only the
successfully read frames of the window. -/
theorem c10_silent_frame_skip (frameSource : Nat → Option (List Det))
    (wings : List (String × ℚ)) :
    (∀ (frames : List Nat) (acc : ChunkResult),
      chunk_loop frameSource wings frames acc
        = chunk_loop frameSource wings
            (frames.filter (fun fi => (frameSource fi).isSome)) acc) ∧
    (∀ (start_frame num_frames total_frames : Nat) (init : List Track),
      analyze_video_chunk frameSource start_frame num_frames total_frames wings init
        = chunk_loop frameSource wings
            ((frame_range start_frame num_frames total_frames).filter
              (fun fi => (frameSource fi).isSome))
            { aggregated := [], final_state := init }) := by
  have hmain : ∀ (frames : List Nat) (acc : ChunkResult),
      chunk_loop frameSource wings frames acc
        = chunk_loop frameSource wings
            (frames.filter (fun fi => (frameSource fi).isSome)) acc := by
    intro frames
    induction frames with
    | nil => intro acc; rfl
    | cons fi rest ih =>
        intro acc
        show chunk_loop frameSource wings rest (chunk_step frameSource wings acc fi) = _
        by_cases hfi : (frameSource fi).isSome = true
        · have hfil : List.filter (fun fi => (frameSource fi).isSome) (fi :: rest)
              = fi :: List.filter (fun fi => (frameSource fi).isSome) rest := by
            simp [List.filter_cons, hfi]
          rw [hfil]
          exact ih (chunk_step frameSource wings acc fi)
        · have hfs : frameSource fi = none := by
            cases hc : frameSource fi with
            | none => rfl
            | some raw => rw [hc] at hfi; exact absurd rfl hfi
          have hstep : chunk_step frameSource wings acc fi = acc := by
            unfold chunk_step process_video_frame_with_tracking
            rw [hfs]
          have hfil : List.filter (fun fi => (frameSource fi).isSome) (fi :: rest)
              = List.filter (fun fi => (frameSource fi).isSome) rest := by
            simp [List.filter_cons, hfs]
          rw [hfil, hstep]
          exact ih acc
  exact ⟨hmain, fun start_frame num_frames total_frames init => hmain _ _⟩

/-! ### C8: isolation of the caller's store (heap-level model)

The value-level embedding cannot express "does not mutate the caller's
dict", so the deep copy at detector.py lines 369-371 is modelled one level
lower: a heap maps references to store values, the per-frame processing
mutates the cell it is handed, and `copy.deepcopy` allocates a fresh cell
holding the same value.  C8 is then the frame property that the caller's
cell is untouched. -/

/-- A heap of track stores: references to the mutable dicts held by callers
(such as `tracking_cache[video_filename]` in app.py). -/
structure Heap where
  cells : List (Nat × List Track)
deriving DecidableEq

def Heap.get (h : Heap) (r : Nat) : List Track :=
  match h.cells.find? (fun c => c.1 == r) with
  | some c => c.2
  | none => []

def Heap.set (h : Heap) (r : Nat) (v : List Track) : Heap :=
  ⟨h.cells.map (fun c => if c.1 == r then (r, v) else c)⟩

def Heap.fresh (h : Heap) : Nat := (h.cells.map (fun c => c.1)).foldl max 0 + 1

/-- `copy.deepcopy(initial_tracking_state)` (detector.py lines 370-371):
a fresh cell holding the same store value as the source — nested track
records included, since the cell holds the whole value. -/
def Heap.alloc (h : Heap) (v : List Track) : Heap × Nat :=
  (⟨h.cells ++ [(h.fresh, v)]⟩, h.fresh)

/-- Body of the chunk loop at the heap level: each frame mutates the local
cell `rl` in place (detector.py lines 375-385). -/
def heap_chunk_step (frameSource : Nat → Option (List Det))
    (wings : List (String × ℚ)) (rl : Nat)
    (acc : List (String × Nat) × Heap) (fi : Nat) : List (String × Nat) × Heap :=
  match process_video_frame_with_tracking frameSource fi wings (acc.2.get rl) with
  | (_, s', some _) => (acc.1, acc.2.set rl s')
  | (dets, s', none) => (tally acc.1 (dets.map (fun d => d.cls)), acc.2.set rl s')

/-- `analyze_video_chunk` at the heap level (detector.py lines 352-386): the
initial store is read from the caller's cell `r`, deep-copied into a fresh
cell, and the loop thence only touches the fresh cell. -/
def analyze_video_chunk_ref (frameSource : Nat → Option (List Det))
    (start_frame num_frames total_frames : Nat) (wings : List (String × ℚ))
    (h : Heap) (r : Nat) : ChunkResult × Heap :=
  let al := h.alloc (h.get r)
  let res := (frame_range start_frame num_frames total_frames).foldl
    (heap_chunk_step frameSource wings al.2) ([], al.1)
  (⟨res.1, res.2.get al.2⟩, res.2)

theorem Heap.get_set_ne (h : Heap) (r r' : Nat) (v : List Track) (hne : r' ≠ r) :
    (h.set r' v).get r = h.get r := by
  obtain ⟨cells⟩ := h
  show Heap.get ⟨cells.map (fun c => if c.1 == r' then (r', v) else c)⟩ r
    = Heap.get ⟨cells⟩ r
  unfold Heap.get
  induction cells with
  | nil => rfl
  | cons c rest ih =>
      rw [List.map_cons]
      by_cases hc : c.1 = r'
      · have hhead : (if c.1 == r' then (r', v) else c) = (r', v) := by
          rw [if_pos (by simpa using hc)]
        rw [hhead]
        rw [List.find?_cons_of_neg _ (by simpa using hne),
          List.find?_cons_of_neg _ (by simp [hc, hne])]
        exact ih
      · have hhead : (if c.1 == r' then (r', v) else c) = c := by
          rw [if_neg (by simpa using hc)]
        rw [hhead]
        by_cases hp : c.1 = r
        · rw [List.find?_cons_of_pos _ (by simpa using hp),
            List.find?_cons_of_pos _ (by simpa using hp)]
        · rw [List.find?_cons_of_neg _ (by simpa using hp),
            List.find?_cons_of_neg _ (by simpa using hp)]
          exact ih

theorem Heap.get_alloc (h : Heap) (v : List Track) (r : Nat)
    (hr : r ∈ h.cells.map (fun c => c.1)) :
    ((h.alloc v).1).get r = h.get r := by
  show Heap.get ⟨h.cells ++ [(h.fresh, v)]⟩ r = h.get r
  unfold Heap.get
  obtain ⟨c0, hc0, hc0r⟩ := List.mem_map.mp hr
  have hsome : (h.cells.find? (fun c => c.1 == r)).isSome := by
    rw [List.find?_isSome]
    exact ⟨c0, hc0, by simpa using hc0r⟩
  rw [List.find?_append]
  cases hfind : h.cells.find? (fun c => c.1 == r) with
  | none => rw [hfind] at hsome; cases hsome
  | some c => rfl

theorem heap_chunk_step_snd (frameSource : Nat → Option (List Det))
    (wings : List (String × ℚ)) (rl : Nat) (acc : List (String × Nat) × Heap)
    (fi : Nat) :
    ∃ v, (heap_chunk_step frameSource wings rl acc fi).2 = acc.2.set rl v := by
  cases hfs : frameSource fi with
  | none =>
      have hp : process_video_frame_with_tracking frameSource fi wings (acc.2.get rl)
          = ([], acc.2.get rl, some "Could not read frame.") := by
        unfold process_video_frame_with_tracking
        rw [hfs]
      refine ⟨acc.2.get rl, ?_⟩
      unfold heap_chunk_step
      rw [hp]
  | some raw =>
      have hp : process_video_frame_with_tracking frameSource fi wings (acc.2.get rl)
          = ((process_frame_core (Int.ofNat fi) raw wings (acc.2.get rl)).dets,
              (process_frame_core (Int.ofNat fi) raw wings (acc.2.get rl)).state,
              none) := by
        unfold process_video_frame_with_tracking
        rw [hfs]
      refine ⟨(process_frame_core (Int.ofNat fi) raw wings (acc.2.get rl)).state, ?_⟩
      unfold heap_chunk_step
      rw [hp]

theorem heap_fold_get (frameSource : Nat → Option (List Det))
    (wings : List (String × ℚ)) (rl r : Nat) (hne : rl ≠ r) :
    ∀ (frames : List Nat) (acc : List (String × Nat) × Heap),
      ((frames.foldl (heap_chunk_step frameSource wings rl) acc).2).get r
        = acc.2.get r := by
  intro frames
  induction frames with
  | nil => intro acc; rfl
  | cons fi rest ih =>
      intro acc
      rw [List.foldl_cons, ih (heap_chunk_step frameSource wings rl acc fi)]
      obtain ⟨v, hv⟩ := heap_chunk_step_snd frameSource wings rl acc fi
      rw [hv]
      exact Heap.get_set_ne acc.2 r rl v hne

/-- C8.  A chunk-analysis call never mutates the Track Store instance handed
to it as the initial state: all tracking updates go to a private deep copy
(a fresh heap cell holding the same value, nested track records included),
so the caller's cell holds exactly the same store value — structurally
identical — after the call. -/
theorem c8_chunk_isolation (frameSource : Nat → Option (List Det))
    (start_frame num_frames total_frames : Nat) (wings : List (String × ℚ))
    (h : Heap) (r : Nat) (hr : r ∈ h.cells.map (fun c => c.1)) :
    ((analyze_video_chunk_ref frameSource start_frame num_frames total_frames
        wings h r).2).get r = h.get r := by
  have hlt : r < h.fresh := by
    have := mem_le_foldl_max hr 0
    unfold Heap.fresh
    omega
  have hne : h.fresh ≠ r := by omega
  show (((frame_range start_frame num_frames total_frames).foldl
      (heap_chunk_step frameSource wings (h.alloc (h.get r)).2)
      ([], (h.alloc (h.get r)).1)).2).get r = h.get r
  rw [heap_fold_get frameSource wings (h.alloc (h.get r)).2 r hne]
  exact Heap.get_alloc h (h.get r) r hr

/-- Concrete heap for the C8 witness: one caller cell holding a one-track
store, analysed over a 1-frame window. -/
def c8_fs : Nat → Option (List Det) := fun _ => some [c2_det]

def c8_heap : Heap := ⟨[(1, [c6_track])]⟩

/-- Witness for C8 at the concrete heap: after the chunk analysis the
caller's cell still holds the original store. -/
theorem c8_chunk_isolation_witness :
    ((analyze_video_chunk_ref c8_fs 0 1 10 [] c8_heap 1).2).get 1 = c8_heap.get 1 :=
  c8_chunk_isolation c8_fs 0 1 10 [] c8_heap 1 (by decide)

end BDP
